import Mathlib

/-!
Shallow embedding of the BAT single-bin classifier
(`src/CAT_pack/single_bin.py`, function `run`, lines 470-593) together with
the taxonomy helpers of the `tax` module that the driver calls.  The `tax`
module is not part of the sources, so its four functions
(`find_lineage`, `star_lineage`, `find_LCA_for_ORF`, `find_weighted_LCA`)
are modelled from the specification (spec.md sections 4.4, 4.5, 4.6), with
their sentinel protocol taken from the call sites in `single_bin.run`.

Strings model Python strings, rationals model the bit-score floats, and
association lists model the dictionaries.  Fallible taxonomy walks return
`Option`; a `none` models the fatal lineage-walk failure of spec section 7.
-/

namespace BAT

/-- Python `s.startswith(pre)`, character-level prefix test. -/
def strStartsWith (s pre : String) : Bool :=
  pre.data.isPrefixOf s.data

/-- Dictionary lookup, modelling `d[k]` / `k in d` on a Python dict given as
an association list. -/
def alookup {α : Type} (l : List (String × α)) (k : String) : Option α :=
  (l.find? (fun p => p.1 == k)).map (fun p => p.2)

/-- Decimal digit character for `n % 10`. -/
def digitChar (n : ℕ) : Char :=
  Char.ofNat (48 + n % 10)

/-- Exactly two decimal digits for a remainder below 100. -/
def twoDigits (m : ℕ) : String :=
  String.mk [digitChar (m / 10), digitChar m]

/-- Python `'{0:.2f}'.format(score)`: the score rendered with exactly two
digits after the decimal point.  The rounding to the nearest hundredth is
modelled with round-half-up; the claims under verification only depend on
the two-decimal shape and on values where the rounding modes agree. -/
def fmt2 (q : ℚ) : String :=
  Nat.repr ((Int.floor (q * 100 + 1 / 2)).toNat / 100) ++ "." ++
    twoDigits ((Int.floor (q * 100 + 1 / 2)).toNat % 100)

/-- Rendering of a bit-score field (`'{3}'.format(top_bitscore)`).  The
exact digit string of the Python float is not claim-relevant; the field is
kept as an injective rendering of the rational bit-score. -/
def fmtQ (q : ℚ) : String :=
  if q.den = 1 then Int.repr q.num
  else Int.repr q.num ++ "/" ++ Nat.repr q.den

/-- Python `';'.join(l)`. -/
def joinSemi (l : List String) : String :=
  String.intercalate ";" l

/-- Python `'\t'.join(fields)`: one report line from its fields. -/
def renderRow (fields : List String) : String :=
  String.intercalate "\t" fields

/-- Drop the field at index `k`, keeping every other field of a row. -/
def maskAt (k : ℕ) (l : List String) : List String :=
  l.take k ++ l.drop (k + 1)

/-- Modelled from the spec: `tax.find_lineage` (spec section 4.5) is not
under src/.  Walks parent pointers from `t`, collecting the visited ids
leaf-to-root, stopping inclusively at the node that is its own parent.  A
missing parent entry is the fatal `UnknownTaxonId` of spec section 7,
modelled as `none`; the fuel bounds the walk so that a cyclic parent map
also yields `none` instead of divergence. -/
def findLineage (parent : String → Option String) : ℕ → String → Option (List String)
  | 0, _ => none
  | fuel + 1, t =>
    match parent t with
    | none => none
    | some p => if p = t then some [t] else (findLineage parent fuel p).map (fun L => t :: L)

/-- Modelled from the spec: `tax.star_lineage` (spec section 4.5,
`annotate`) is not under src/.  Marks every lineage entry that belongs to
the ambiguity set by appending the marker, leaving the other entries
untouched. -/
def star_lineage (lineage : List String) (amb : List String) : List String :=
  lineage.map (fun t => if amb.contains t then t ++ "*" else t)

/-- Top bit-score of an ORF's hit list (spec section 4.4 step 2). -/
def topBitscore (hits : List (String × ℚ)) : ℚ :=
  (hits.map (fun h => h.2)).foldl max 0

/-- Deepest node shared by two leaf-to-root lineages: the first entry of
the first lineage that occurs in the second (ancestor-chain intersection,
spec section 4.4 step 7). -/
def deepestShared (L1 L2 : List String) : Option String :=
  L1.find? (fun a => L2.contains a)

/-- Pairwise LCA of two taxon ids through the taxonomy tree. -/
def findLCApair (parent : String → Option String) (fuel : ℕ) (t u : String) : Option String :=
  match findLineage parent fuel t, findLineage parent fuel u with
  | some L1, some L2 => deepestShared L1 L2
  | _, _ => none

/-- Fold of the pairwise LCA over a list of taxon ids. -/
def lcaFold (parent : String → Option String) (fuel : ℕ) : String → List String → Option String
  | t, [] => some t
  | t, u :: us =>
    match findLCApair parent fuel t u with
    | none => none
    | some m => lcaFold parent fuel m us

/-- Modelled from the spec: `tax.find_LCA_for_ORF` (spec section 4.4 steps
5-7) is not under src/.  Resolves each hit's accession through the
accession index, drops unresolved hits, and intersects the lineages of the
resolved taxon ids; when no hit resolves it returns the sentinel taxid
string starting with "no taxid found", which is exactly the prefix the
call site `single_bin.run` line 497 tests for.  The bit-score range window
(spec section 4.4 steps 2-4) is applied upstream when the alignment table
is parsed (`parse_tabular_alignment` receives `one_minus_r`), as the call
site passes no `r`; the hits received here are already windowed.  The top
bit-score is returned alongside in both outcomes, as the call site prints
it for unresolved ORFs too. -/
def find_LCA_for_ORF (hits : List (String × ℚ)) (acc : String → Option String)
    (parent : String → Option String) (fuel : ℕ) : Option (String × ℚ) :=
  match hits.filterMap (fun h => acc h.1) with
  | [] => some ("no taxid found", topBitscore hits)
  | t :: ts => (lcaFold parent fuel t ts).map (fun x => (x, topBitscore hits))

/-- Result of the bin-level weighted aggregation.  The source encodes the
two failure outcomes as sentinel strings compared at the call site
(`single_bin.run` lines 523 and 529); spec section 9 documents them, and
they are modelled as explicit variants. -/
inductive FwlcaResult where
  | noTaxids : FwlcaResult
  | noWhitelist : FwlcaResult
  | classified : List (List String) → List (List ℚ) → ℕ → FwlcaResult
deriving DecidableEq

/-- Entries of the aggregation input whose taxid is not the unresolved
sentinel; the call site appends sentinel pairs too, and the aggregator
itself drops them (evidenced by the sentinel return tested at
`single_bin.run` line 523). -/
def sentinelFree (entries : List (String × ℚ)) : List (String × ℚ) :=
  entries.filter (fun e => !(strStartsWith e.1 "no taxid found"))

/-- Pair every entry with its full leaf-to-root lineage (spec section 4.6
step 3); a failing lineage walk is fatal (spec section 7). -/
def withLineages (parent : String → Option String) (fuel : ℕ)
    (entries : List (String × ℚ)) : Option (List ((String × ℚ) × List String)) :=
  entries.mapM (fun e => (findLineage parent fuel e.1).map (fun L => (e, L)))

/-- Total bit-score weight of the aggregation entries (spec section 4.6
step 2). -/
def totalWeight (rl : List ((String × ℚ) × List String)) : ℚ :=
  (rl.map (fun el => el.1.2)).sum

/-- Summed weight of the entries whose lineage contains `n`. -/
def weightOf (rl : List ((String × ℚ) × List String)) (n : String) : ℚ :=
  totalWeight (rl.filter (fun el => el.2.contains n))

/-- Support of a node: its weight over the total weight (spec section 4.6
step 4). -/
def supportOf (rl : List ((String × ℚ) × List String)) (n : String) : ℚ :=
  weightOf rl n / totalWeight rl

/-- Each node of a leaf-to-root lineage paired with its own ancestor chain
(the suffix of the lineage that starts at it). -/
def lineageChains : List String → List (String × List String)
  | [] => []
  | t :: rest => (t, t :: rest) :: lineageChains rest

/-- Keep the first chain recorded for every node id. -/
def dedupKeysAux (seen : List String) :
    List (String × List String) → List (String × List String)
  | [] => []
  | p :: rest =>
    if seen.contains p.1 then dedupKeysAux seen rest
    else p :: dedupKeysAux (p.1 :: seen) rest

/-- Every node appearing in any expanded lineage, paired with its ancestor
chain. -/
def allChains (rl : List ((String × ℚ) × List String)) : List (String × List String) :=
  dedupKeysAux [] (rl.flatMap (fun el => lineageChains el.2))

/-- Nodes whose whole ancestor chain has support at least `f` (spec
section 4.6 step 5). -/
def qualified (rl : List ((String × ℚ) × List String)) (f : ℚ) :
    List (String × List String) :=
  (allChains rl).filter (fun nc => nc.2.all (fun a => decide (f ≤ supportOf rl a)))

/-- The maximal-depth qualified nodes: qualified nodes with no strict
descendant among the qualified nodes (spec section 4.6 step 5). -/
def selectedChains (rl : List ((String × ℚ) × List String)) (f : ℚ) :
    List (String × List String) :=
  (qualified rl f).filter
    (fun nc => !((qualified rl f).any (fun mc => mc.1 != nc.1 && mc.2.contains nc.1)))

/-- Number of entries whose lineage passes through at least one selected
node (spec section 4.6 step 7, `based_on_n_ORFs`). -/
def basedOnCount (rl : List ((String × ℚ) × List String))
    (sel : List (String × List String)) : ℕ :=
  (rl.filter (fun el => sel.any (fun nc => el.2.contains nc.1))).length

/-- Modelled from the spec: `tax.find_weighted_LCA` (spec section 4.6) is
not under src/.  Sentinel entries are dropped first (the call site passes
them and tests for the sentinel return of step 1); every remaining entry
is expanded to its lineage, supports are computed per node, the
maximal-depth nodes whose whole ancestor chain has support at least `f`
are selected, and the selected lineages are returned with their
per-ancestor support scores and the supporting-ORF count. -/
def find_weighted_LCA (entries : List (String × ℚ)) (parent : String → Option String)
    (fuel : ℕ) (f : ℚ) : Option FwlcaResult :=
  if (sentinelFree entries).isEmpty then some .noTaxids
  else
    match withLineages parent fuel (sentinelFree entries) with
    | none => none
    | some rl =>
      if (selectedChains rl f).isEmpty then some .noWhitelist
      else
        some (.classified
          ((selectedChains rl f).map (fun nc => nc.2))
          ((selectedChains rl f).map (fun nc => nc.2.map (supportOf rl)))
          (basedOnCount rl (selectedChains rl f)))

/-- Input state of the classification phase of `single_bin.run`: the
tables imported in lines 413-462 and the arguments used by the phase. -/
structure RunInput where
  bin : String
  contig_names : List String
  contig2ORFs : List (String × List String)
  ORF2hits : List (String × List (String × ℚ))
  fastaid2LCAtaxid : List (String × String)
  taxid2parent : List (String × String)
  taxids_with_multiple_offspring : List String
  f : ℚ
  no_stars : Bool

/-- Fuel for taxonomy walks: one more than the number of parent entries,
enough to traverse any acyclic parent chain of the table. -/
def lineageFuel (i : RunInput) : ℕ :=
  i.taxid2parent.length + 1

/-- Python `sorted(contig_names)` (`single_bin.run` line 480). -/
def sortedContigs (i : RunInput) : List String :=
  List.insertionSort (fun a b => a ≤ b) i.contig_names

/-- The ORFs visited by the report loop: contigs in sorted order, contigs
absent from `contig2ORFs` skipped, each contig's ORFs in their recorded
order (`single_bin.run` lines 480-484). -/
def orfsOfRun (i : RunInput) : List String :=
  (sortedContigs i).flatMap (fun c => (alookup i.contig2ORFs c).getD [])

/-- `total_n_ORFs` (`single_bin.run` lines 540-541): summed ORF counts over
`contig_names` in their given order. -/
def totalNORFs (i : RunInput) : ℕ :=
  ((i.contig_names.filterMap (fun c => alookup i.contig2ORFs c)).map List.length).sum

/-- One iteration of the per-ORF loop (`single_bin.run` lines 484-510):
the ORF2LCA report row it writes, and the `(taxid, top_bitscore)` pair it
appends to `LCAs_ORFs` (`none` when the ORF has no hit and the loop
`continue`s before the append). -/
def processORF (i : RunInput) (orf : String) : Option (List String × Option (String × ℚ)) :=
  match alookup i.ORF2hits orf with
  | none => some ([orf, i.bin, "ORF has no hit to database"], none)
  | some hits =>
    match find_LCA_for_ORF hits (alookup i.fastaid2LCAtaxid) (alookup i.taxid2parent)
        (lineageFuel i) with
    | none => none
    | some tt =>
      if strStartsWith tt.1 "no taxid found" then
        some ([orf, i.bin, tt.1, fmtQ tt.2], some tt)
      else
        match findLineage (alookup i.taxid2parent) (lineageFuel i) tt.1 with
        | none => none
        | some lineage =>
          some ([orf, i.bin,
            joinSemi (if i.no_stars then lineage else
              star_lineage lineage i.taxids_with_multiple_offspring).reverse,
            fmtQ tt.2], some tt)

/-- The whole per-ORF loop over the ORFs of the bin. -/
def orfResults (i : RunInput) : Option (List (List String × Option (String × ℚ))) :=
  List.mapM (processORF i) (orfsOfRun i)

/-- Rows of the ORF2LCA report (without the header line). -/
def orfRowsOf (i : RunInput) : Option (List (List String)) :=
  (orfResults i).map (fun res => res.map (fun pr => pr.1))

/-- The `LCAs_ORFs` list handed to `tax.find_weighted_LCA`
(`single_bin.run` lines 510 and 520-521). -/
def lcasOf (i : RunInput) : Option (List (String × ℚ)) :=
  (orfResults i).map (fun res => res.filterMap (fun pr => pr.2))

/-- The reason column of a classified bin row (`'based on {1}/{2} ORFs'`). -/
def basedOnStr (b t : ℕ) : String :=
  "based on " ++ Nat.repr b ++ "/" ++ Nat.repr t ++ " ORFs"

/-- One classified bin2classification row (`single_bin.run` lines
543-578): status "classified" when a single lineage was returned, status
"classified (i/n)" with 1-based numbering otherwise; lineage and scores
are reversed to root-to-leaf, scores formatted to two decimals. -/
def classifiedRow (i : RunInput) (n total basedOn : ℕ)
    (p : ℕ × (List String × List ℚ)) : List String :=
  [i.bin,
   if n = 1 then "classified"
   else "classified (" ++ Nat.repr (p.1 + 1) ++ "/" ++ Nat.repr n ++ ")",
   basedOnStr basedOn total,
   joinSemi (if i.no_stars then p.2.1 else
     star_lineage p.2.1 i.taxids_with_multiple_offspring).reverse,
   joinSemi (p.2.2.map fmt2).reverse]

/-- Rows of the bin2classification report for one bin (`single_bin.run`
lines 512-578), from the collected `LCAs_ORFs` list and the total ORF
count. -/
def binRowsCore (i : RunInput) (lcas : List (String × ℚ)) (total : ℕ) :
    Option (List (List String)) :=
  if lcas.isEmpty then some [[i.bin, "unclassified", "no hits to database"]]
  else
    match find_weighted_LCA lcas (alookup i.taxid2parent) (lineageFuel i) i.f with
    | none => none
    | some .noTaxids => some [[i.bin, "unclassified", "hits not found in taxonomy files"]]
    | some .noWhitelist =>
      some [[i.bin, "unclassified", "no lineage reached minimum bit-score support"]]
    | some (.classified lins scoress basedOn) =>
      some (((lins.zip scoress).enum).map (classifiedRow i lins.length total basedOn))

/-- Rows of the bin2classification report computed from the run input. -/
def binRowsOf (i : RunInput) : Option (List (List String)) :=
  match lcasOf i with
  | none => none
  | some lcas => binRowsCore i lcas (totalNORFs i)

/-- Header line of the bin2classification file (`single_bin.run` line 471). -/
def headerBin : String :=
  "# bin\tclassification\treason\tlineage\tlineage scores"

/-- Header line of the ORF2LCA file (`single_bin.run` line 472). -/
def headerORF : String :=
  "# ORF\tbin\tlineage\tbit-score"

/-- The classification phase given the visited ORF list and the total ORF
count: the two produced files as line lists, `none` on a fatal
taxonomy-walk failure. -/
def runFrom (i : RunInput) (orfs : List String) (total : ℕ) :
    Option (List String × List String) :=
  match List.mapM (processORF i) orfs with
  | none => none
  | some res =>
    match binRowsCore i (res.filterMap (fun pr => pr.2)) total with
    | none => none
    | some brows =>
      some (headerBin :: brows.map renderRow,
            headerORF :: (res.map (fun pr => pr.1)).map renderRow)

/-- The classification phase of `single_bin.run` end to end: both output
files, headers first. -/
def run (i : RunInput) : Option (List String × List String) :=
  runFrom i (orfsOfRun i) (totalNORFs i)

/-- Replace the contig-name list of a run input. -/
def setContigs (i : RunInput) (l : List String) : RunInput :=
  { i with contig_names := l }

/-- Replace the `no_stars` flag of a run input. -/
def setStars (i : RunInput) (b : Bool) : RunInput :=
  { i with no_stars := b }

/-- The values accepted for `-r / --range` (`parse_arguments` line 60:
`choices = [i for i in range(50)]`). -/
def r_choices : List ℚ :=
  (List.range 50).map (fun i : ℕ => (i : ℚ))

/-- The values accepted for `-f / --fraction` (`parse_arguments` line 71:
`choices = [i / 100 for i in range(0, 100)]`). -/
def f_choices : List ℚ :=
  (List.range 100).map (fun i : ℕ => (i : ℚ) / 100)

/-- Default of `-r / --range` (`decimal.Decimal(5)`). -/
def default_r : ℚ := 5

/-- Default of `-f / --fraction`: `decimal.Decimal(0.3)` is the exact
value of the IEEE-754 double nearest 0.3, namely 5404319552844595/2^54,
not 3/10. -/
def default_f : ℚ := 5404319552844595 / 2 ^ 54

/-- Whether a value passes the argparse `choices` check for `r`. -/
def accepts_r (x : ℚ) : Bool :=
  r_choices.contains x

/-- Whether a value passes the argparse `choices` check for `f`. -/
def accepts_f (x : ℚ) : Bool :=
  f_choices.contains x

/-! ## Concrete inputs used by counterexamples and witnesses -/

/-- Scenario taxonomy of spec section 8: 1 is the root, 2 below 1, and the
siblings 3 and 4 below 2. -/
def exParents : List (String × String) :=
  [("1", "1"), ("2", "1"), ("3", "2"), ("4", "2")]

/-- A bin with a single ORF that has no hit to the database. -/
def cNoHit : RunInput :=
  { bin := "binA"
    contig_names := ["c"]
    contig2ORFs := [("c", ["orf1"])]
    ORF2hits := []
    fastaid2LCAtaxid := []
    taxid2parent := []
    taxids_with_multiple_offspring := []
    f := 0
    no_stars := true }

/-- A bin with a single ORF whose only hit points at an accession absent
from the accession index (spec section 8, scenario 4). -/
def cSent : RunInput :=
  { bin := "binA"
    contig_names := ["c"]
    contig2ORFs := [("c", ["orf1"])]
    ORF2hits := [("orf1", [("accX", 42)])]
    fastaid2LCAtaxid := []
    taxid2parent := []
    taxids_with_multiple_offspring := []
    f := 0
    no_stars := true }

/-- Scenario 2 of spec section 8: two ORFs of one bin resolving to the
siblings 3 (bit-score 100) and 4 (bit-score 50), classified with
f = 3/10. -/
def sc4 : RunInput :=
  { bin := "b"
    contig_names := ["c"]
    contig2ORFs := [("c", ["o1", "o2"])]
    ORF2hits := [("o1", [("a1", 100)]), ("o2", [("a2", 50)])]
    fastaid2LCAtaxid := [("a1", "3"), ("a2", "4")]
    taxid2parent := exParents
    taxids_with_multiple_offspring := ["2"]
    f := 3 / 10
    no_stars := true }

/-- The lineage-expanded aggregation entries of `sc4`. -/
def rl4 : List ((String × ℚ) × List String) :=
  [(("3", 100), ["3", "2", "1"]), (("4", 50), ["4", "2", "1"])]

/-! ## Generic helpers about `Option`-valued `mapM` -/

theorem mapM_cons_some {α β : Type} (g : α → Option β) (a : α) (l : List α)
    (res : List β) (h : List.mapM g (a :: l) = some res) :
    ∃ b rs, g a = some b ∧ List.mapM g l = some rs ∧ res = b :: rs := by
  rw [List.mapM_cons] at h
  cases hga : g a with
  | none => rw [hga] at h; simp at h
  | some b =>
    rw [hga] at h
    cases hml : List.mapM g l with
    | none => rw [hml] at h; simp at h
    | some rs =>
      rw [hml] at h
      simp only [Option.pure_def, Option.bind_eq_bind, Option.some_bind,
        Option.some.injEq] at h
      exact ⟨b, rs, rfl, rfl, h.symm⟩

theorem mapM_nil_some {α β : Type} (g : α → Option β) (res : List β)
    (h : List.mapM g ([] : List α) = some res) : res = [] := by
  rw [List.mapM_nil] at h
  simpa using h.symm

theorem mem_of_mapM_some {α β : Type} (g : α → Option β) :
    ∀ (l : List α) (res : List β), List.mapM g l = some res →
      ∀ b ∈ res, ∃ a ∈ l, g a = some b := by
  intro l
  induction l with
  | nil =>
    intro res h b hb
    rw [mapM_nil_some g res h] at hb
    simp at hb
  | cons a l ih =>
    intro res h b hb
    obtain ⟨b0, rs, hga, hml, hres⟩ := mapM_cons_some g a l res h
    subst hres
    rcases List.mem_cons.mp hb with hb | hb
    · exact ⟨a, List.mem_cons_self a l, hb ▸ hga⟩
    · obtain ⟨a0, ha0, hga0⟩ := ih rs hml b hb
      exact ⟨a0, List.mem_cons_of_mem a ha0, hga0⟩

theorem mapM_some_of_forall {α β : Type} (g : α → Option β) :
    ∀ l : List α, (∀ a ∈ l, (g a).isSome) → ∃ res, List.mapM g l = some res := by
  intro l
  induction l with
  | nil => exact fun _ => ⟨[], rfl⟩
  | cons a l ih =>
    intro h
    obtain ⟨b, hb⟩ := Option.isSome_iff_exists.mp (h a (List.mem_cons_self a l))
    obtain ⟨rs, hrs⟩ := ih (fun x hx => h x (List.mem_cons_of_mem a hx))
    exact ⟨b :: rs, by rw [List.mapM_cons, hb, hrs]; rfl⟩

/-! ## The configuration surface (claim C8) -/

theorem accepts_r_iff (x : ℚ) : accepts_r x = true ↔ ∃ i : ℕ, i < 50 ∧ x = (i : ℚ) := by
  simp only [accepts_r, r_choices, List.contains_iff_exists_mem_beq, List.mem_map,
    List.mem_range, beq_iff_eq]
  constructor
  · rintro ⟨y, ⟨i, hi, rfl⟩, rfl⟩
    exact ⟨i, hi, rfl⟩
  · rintro ⟨i, hi, rfl⟩
    exact ⟨(i : ℚ), ⟨i, hi, rfl⟩, rfl⟩

theorem accepts_f_iff (x : ℚ) :
    accepts_f x = true ↔ ∃ i : ℕ, i < 100 ∧ x = (i : ℚ) / 100 := by
  simp only [accepts_f, f_choices, List.contains_iff_exists_mem_beq, List.mem_map,
    List.mem_range, beq_iff_eq]
  constructor
  · rintro ⟨y, ⟨i, hi, rfl⟩, rfl⟩
    exact ⟨i, hi, rfl⟩
  · rintro ⟨i, hi, rfl⟩
    exact ⟨(i : ℚ) / 100, ⟨i, hi, rfl⟩, rfl⟩

/-! ## Claim C8 -/

/-- C8 counterexample: the in-range value 5/2 is rejected by the `r`
choices check (only the 50 integer values are accepted), and the default
of `f`, `decimal.Decimal(0.3)`, is not exactly 3/10. -/
theorem c8_counterexample :
    ((0 : ℚ) ≤ 5 / 2 ∧ (5 / 2 : ℚ) ≤ 49 ∧ accepts_r (5 / 2) = false) ∧
      default_f ≠ 3 / 10 := by
  refine ⟨⟨by norm_num, by norm_num, ?_⟩, by norm_num [default_f]⟩
  rw [Bool.eq_false_iff]
  intro h
  obtain ⟨i, hi, hx⟩ := (accepts_r_iff _).mp h
  have h2 : (5 : ℚ) = 2 * (i : ℚ) := by linarith
  have h3 : ((5 : ℕ) : ℚ) = ((2 * i : ℕ) : ℚ) := by push_cast; linarith
  have h4 : (5 : ℕ) = 2 * i := Nat.cast_injective h3
  omega

/-- C8 amended: the configuration surface accepts `r` exactly at the 50
integer values 0..49 with default 5, and `f` exactly at the hundredths
0.00..0.99; the default of `f` is `decimal.Decimal(0.3)`, the IEEE-754
double nearest 0.3, which lies just below 3/10 rather than being exactly
3/10. -/
theorem c8_amended :
    (∀ x : ℚ, accepts_r x = true ↔ ∃ i : ℕ, i < 50 ∧ x = (i : ℚ)) ∧
    default_r = 5 ∧
    (∀ x : ℚ, accepts_f x = true ↔ ∃ i : ℕ, i < 100 ∧ x = (i : ℚ) / 100) ∧
    default_f < 3 / 10 ∧ (3 : ℚ) / 10 - default_f < 1 / 10 ^ 15 := by
  refine ⟨accepts_r_iff, rfl, accepts_f_iff, ?_, ?_⟩
  · norm_num [default_f]
  · norm_num [default_f]

/-! ## Claim C5: counterexample -/

/-- C5 counterexample: the per-ORF report row written for an ORF with no
hit to the database has three fields, not four — the bit-score field is
absent (`single_bin.run` line 486). -/
theorem c5_counterexample :
    orfRowsOf cNoHit = some [["orf1", "binA", "ORF has no hit to database"]] ∧
    (["orf1", "binA", "ORF has no hit to database"] : List String).length = 3 ∧
    (3 : ℕ) ≠ 4 := by
  refine ⟨by decide, by decide, by decide⟩

/-! ## Claim C1: counterexample -/

/-- C1 counterexample: for a bin whose only ORF has a hit to an accession
absent from the accession index, the `LCAs_ORFs` list handed to
`find_weighted_LCA` contains the unresolved sentinel pair — unresolved
ORFs are appended to the aggregation input too (`single_bin.run` line
510 sits outside the if/else of lines 497-508). -/
theorem c1_counterexample :
    lcasOf cSent = some [("no taxid found", 42)] ∧
    strStartsWith "no taxid found" "no taxid found" = true := by
  refine ⟨by decide, by decide⟩

/-! ## Claim C2: counterexample -/

/-- C2 counterexample: a bin whose every ORF has hits only to accessions
absent from the accession index is reported unclassified with reason
"hits not found in taxonomy files" (`single_bin.run` line 524), and a bin
whose aggregation list is empty (no ORF had any hit) with reason
"no hits to database" (line 513) — neither reason is the claimed
"no ORFs with taxon ids found". -/
theorem c2_counterexample :
    binRowsOf cSent = some [["binA", "unclassified", "hits not found in taxonomy files"]] ∧
    "hits not found in taxonomy files" ≠ "no ORFs with taxon ids found" ∧
    lcasOf cNoHit = some [] ∧
    binRowsOf cNoHit = some [["binA", "unclassified", "no hits to database"]] ∧
    "no hits to database" ≠ "no ORFs with taxon ids found" := by
  refine ⟨by decide, by decide, by decide, by decide, by decide⟩

/-! ## Shape of the per-ORF loop iterations -/

theorem processORF_shape (i : RunInput) (o : String) (pr : List String × Option (String × ℚ))
    (h : processORF i o = some pr) :
    (alookup i.ORF2hits o = none ∧ pr.2 = none ∧
      pr.1 = [o, i.bin, "ORF has no hit to database"]) ∨
    (∃ hits tt, alookup i.ORF2hits o = some hits ∧ pr.2 = some tt ∧ pr.1.length = 4) := by
  unfold processORF at h
  split at h
  · rename_i heq
    simp only [Option.some.injEq] at h
    subst h
    exact Or.inl ⟨heq, rfl, rfl⟩
  · rename_i hits heq
    split at h
    · exact absurd h (by simp)
    · rename_i tt hlca
      split at h
      · simp only [Option.some.injEq] at h
        subst h
        exact Or.inr ⟨hits, tt, heq, rfl, rfl⟩
      · split at h
        · exact absurd h (by simp)
        · rename_i lineage hlin
          simp only [Option.some.injEq] at h
          subst h
          exact Or.inr ⟨hits, tt, heq, rfl, rfl⟩

theorem processORF_snd_isSome (i : RunInput) (o : String)
    (pr : List String × Option (String × ℚ)) (h : processORF i o = some pr) :
    pr.2.isSome = (alookup i.ORF2hits o).isSome := by
  rcases processORF_shape i o pr h with ⟨h1, h2, _⟩ | ⟨hits, tt, h1, h2, _⟩ <;>
    rw [h1, h2] <;> rfl

theorem lcas_length_eq (i : RunInput) :
    ∀ (l : List String) (res : List (List String × Option (String × ℚ))),
      List.mapM (processORF i) l = some res →
      (res.filterMap (fun pr => pr.2)).length =
        (l.filter (fun o => (alookup i.ORF2hits o).isSome)).length := by
  intro l
  induction l with
  | nil =>
    intro res h
    rw [mapM_nil_some _ res h]
    rfl
  | cons o l ih =>
    intro res h
    obtain ⟨pr, rs, hpr, hml, hres⟩ := mapM_cons_some _ o l res h
    subst hres
    have hsnd := processORF_snd_isSome i o pr hpr
    rw [List.filter_cons, List.filterMap_cons]
    cases h2 : pr.2 with
    | none =>
      rw [h2] at hsnd
      rw [← hsnd]
      simpa using ih rs hml
    | some tt =>
      rw [h2] at hsnd
      rw [← hsnd]
      simpa using ih rs hml

/-! ## Claim C1: amended theorem -/

theorem sentinelFree_idem (entries : List (String × ℚ)) :
    sentinelFree (sentinelFree entries) = sentinelFree entries := by
  simp only [sentinelFree, List.filter_filter, Bool.and_self]

/-- C1 amended: an ORF whose hits yield no taxon id is reported in the
per-ORF file, and its `(sentinel, bitscore)` pair is still appended to the
list passed to `find_weighted_LCA` — the list holds one pair for every ORF
with hits, resolved or not; the aggregator itself drops the sentinel
entries first, so they carry no weight in the bin-level aggregation. -/
theorem c1_amended :
    (∀ (entries : List (String × ℚ)) (parent : String → Option String) (fuel : ℕ) (f : ℚ),
      find_weighted_LCA entries parent fuel f =
        find_weighted_LCA (sentinelFree entries) parent fuel f) ∧
    (∀ (i : RunInput) (res : List (List String × Option (String × ℚ))),
      orfResults i = some res →
      (res.filterMap (fun pr => pr.2)).length =
        ((orfsOfRun i).filter (fun o => (alookup i.ORF2hits o).isSome)).length) := by
  constructor
  · intro entries parent fuel f
    unfold find_weighted_LCA
    rw [sentinelFree_idem]
  · intro i res h
    exact lcas_length_eq i (orfsOfRun i) res h

/-- C1 amended, witness at the concrete sentinel input. -/
theorem c1_witness :
    orfResults cSent =
      some [(["orf1", "binA", "no taxid found", fmtQ 42], some ("no taxid found", 42))] ∧
    ([(["orf1", "binA", "no taxid found", fmtQ 42],
        some (("no taxid found" : String), (42 : ℚ)))].filterMap (fun pr => pr.2)).length =
      ((orfsOfRun cSent).filter (fun o => (alookup cSent.ORF2hits o).isSome)).length := by
  refine ⟨by decide, ?_⟩
  exact c1_amended.2 cSent _ (by decide)

/-! ## Claim C5: amended theorem -/

/-- C5 amended: every per-ORF report row for an ORF that has hits carries
four fields (ORF id, bin id, lineage-or-reason, top bit-score), but the
row for an ORF with no hit to the database has only three — the bit-score
field is absent there. -/
theorem c5_amended (i : RunInput) (res : List (List String × Option (String × ℚ)))
    (h : orfResults i = some res) :
    ∀ pr ∈ res, (pr.2 = none → pr.1.length = 3) ∧ (pr.2.isSome → pr.1.length = 4) := by
  intro pr hpr
  obtain ⟨o, _, ho⟩ := mem_of_mapM_some _ (orfsOfRun i) res h pr hpr
  rcases processORF_shape i o pr ho with ⟨_, h2, h3⟩ | ⟨hits, tt, _, h2, h3⟩
  · rw [h3, h2]
    exact ⟨fun _ => rfl, fun hc => by simp at hc⟩
  · rw [h2]
    exact ⟨fun hc => by simp at hc, fun _ => h3⟩

/-- C5 amended, witness at the concrete no-hit input. -/
theorem c5_witness :
    orfResults cNoHit = some [(["orf1", "binA", "ORF has no hit to database"], none)] ∧
    (((["orf1", "binA", "ORF has no hit to database"], none) :
        List String × Option (String × ℚ)).2 = none →
      (["orf1", "binA", "ORF has no hit to database"] : List String).length = 3) := by
  refine ⟨by decide, ?_⟩
  exact (c5_amended cNoHit [(["orf1", "binA", "ORF has no hit to database"], none)]
    (by decide) (["orf1", "binA", "ORF has no hit to database"], none) (by decide)).1

/-! ## Basic facts about the aggregator's branches -/

theorem strStartsWith_self (s : String) : strStartsWith s s = true := by
  unfold strStartsWith
  induction s.data with
  | nil => rfl
  | cons a l ih => simp [List.isPrefixOf, ih]

theorem fwlca_classified_shape (entries : List (String × ℚ))
    (parent : String → Option String) (fuel : ℕ) (f : ℚ)
    (lins : List (List String)) (scoress : List (List ℚ)) (n : ℕ)
    (h : find_weighted_LCA entries parent fuel f = some (.classified lins scoress n)) :
    ∃ rl, withLineages parent fuel (sentinelFree entries) = some rl ∧
      selectedChains rl f ≠ [] ∧
      lins = (selectedChains rl f).map (fun nc => nc.2) ∧
      scoress = (selectedChains rl f).map (fun nc => nc.2.map (supportOf rl)) ∧
      n = basedOnCount rl (selectedChains rl f) := by
  unfold find_weighted_LCA at h
  split at h
  · exact absurd h (by simp)
  · split at h
    · exact absurd h (by simp)
    · rename_i rl hrl
      split at h
      · exact absurd h (by simp)
      · rename_i hsel
        simp only [Option.some.injEq, FwlcaResult.classified.injEq] at h
        exact ⟨rl, hrl, fun hnil => hsel (by rw [hnil]; rfl), h.1.symm, h.2.1.symm, h.2.2.symm⟩

theorem binRowsCore_ne_nil (i : RunInput) (lcas : List (String × ℚ)) (total : ℕ)
    (brows : List (List String)) (h : binRowsCore i lcas total = some brows) :
    brows ≠ [] := by
  unfold binRowsCore at h
  split at h
  · simp only [Option.some.injEq] at h
    subst h
    simp
  · split at h
    · exact absurd h (by simp)
    · simp only [Option.some.injEq] at h
      subst h
      simp
    · simp only [Option.some.injEq] at h
      subst h
      simp
    · rename_i lins scoress basedOn hfw
      simp only [Option.some.injEq] at h
      subst h
      obtain ⟨rl, _, hne, hlins, hscs, _⟩ := fwlca_classified_shape _ _ _ _ _ _ _ hfw
      intro hnil
      rw [List.map_eq_nil_iff] at hnil
      have hzl : ((lins.zip scoress).enum).length = 0 := by rw [hnil]; rfl
      rw [List.enum_length, List.length_zip, hlins, hscs, List.length_map,
        List.length_map] at hzl
      simp only [min_self] at hzl
      exact hne (List.length_eq_zero.mp hzl)

theorem binRowsCore_sentinel (i : RunInput) (lcas : List (String × ℚ)) (total : ℕ)
    (hne : lcas ≠ [])
    (hsent : ∀ e ∈ lcas, strStartsWith e.1 "no taxid found" = true) :
    binRowsCore i lcas total =
      some [[i.bin, "unclassified", "hits not found in taxonomy files"]] := by
  have hsf : sentinelFree lcas = [] := by
    rw [sentinelFree, List.filter_eq_nil_iff]
    intro e he
    simp [hsent e he]
  have hfw : find_weighted_LCA lcas (alookup i.taxid2parent) (lineageFuel i) i.f
      = some .noTaxids := by
    unfold find_weighted_LCA
    rw [hsf]
    rfl
  unfold binRowsCore
  rw [if_neg (fun hemp => hne (List.isEmpty_iff.mp hemp)), hfw]

/-! ## Claim C2: amended theorem -/

/-- C2 amended: when the aggregation finds no entries with taxon ids the
bin is reported unclassified, with reason "no hits to database" when the
`LCAs_ORFs` list is empty (no ORF had any hit, `single_bin.run` line 513),
and with reason "hits not found in taxonomy files" when the list is
non-empty but every entry is the unresolved sentinel (line 524); neither
reason is the claimed "no ORFs with taxon ids found". -/
theorem c2_amended :
    (∀ i : RunInput, lcasOf i = some [] →
      binRowsOf i = some [[i.bin, "unclassified", "no hits to database"]]) ∧
    (∀ (i : RunInput) (lcas : List (String × ℚ)), lcasOf i = some lcas → lcas ≠ [] →
      (∀ e ∈ lcas, strStartsWith e.1 "no taxid found" = true) →
      binRowsOf i = some [[i.bin, "unclassified", "hits not found in taxonomy files"]]) := by
  constructor
  · intro i h
    unfold binRowsOf
    rw [h]
    rfl
  · intro i lcas h hne hsent
    unfold binRowsOf
    rw [h]
    exact binRowsCore_sentinel i lcas (totalNORFs i) hne hsent

/-- C2 amended, witness at the concrete no-hit and all-sentinel inputs. -/
theorem c2_witness :
    lcasOf cNoHit = some [] ∧
    binRowsOf cNoHit = some [["binA", "unclassified", "no hits to database"]] ∧
    lcasOf cSent = some [("no taxid found", 42)] ∧
    binRowsOf cSent = some [["binA", "unclassified", "hits not found in taxonomy files"]] := by
  refine ⟨by decide, c2_amended.1 cNoHit (by decide), by decide, ?_⟩
  exact c2_amended.2 cSent [("no taxid found", 42)] (by decide) (by decide) (by decide)

/-! ## Claim C7 -/

theorem processORF_sentinel_only (i : RunInput) (o : String)
    (hno : ∀ hits, alookup i.ORF2hits o = some hits →
      hits.filterMap (fun h => alookup i.fastaid2LCAtaxid h.1) = []) :
    ∃ pr, processORF i o = some pr ∧
      (∀ tt, pr.2 = some tt → strStartsWith tt.1 "no taxid found" = true) := by
  cases hl : alookup i.ORF2hits o with
  | none =>
    refine ⟨([o, i.bin, "ORF has no hit to database"], none), ?_, fun tt htt => by simp at htt⟩
    unfold processORF
    rw [hl]
  | some hits =>
    have hfm : find_LCA_for_ORF hits (alookup i.fastaid2LCAtaxid) (alookup i.taxid2parent)
        (lineageFuel i) = some ("no taxid found", topBitscore hits) := by
      unfold find_LCA_for_ORF
      rw [hno hits hl]
    refine ⟨([o, i.bin, "no taxid found", fmtQ (topBitscore hits)],
      some ("no taxid found", topBitscore hits)), ?_, fun tt htt => by
        simp only [Option.some.injEq] at htt
        rw [← htt]
        exact strStartsWith_self _⟩
    unfold processORF
    rw [hl]
    dsimp only
    rw [hfm]
    dsimp only
    rw [if_pos (strStartsWith_self _)]

theorem mapM_procs_sentinel (i : RunInput) :
    ∀ l : List String,
      (∀ o ∈ l, ∀ hits, alookup i.ORF2hits o = some hits →
        hits.filterMap (fun h => alookup i.fastaid2LCAtaxid h.1) = []) →
      ∃ res, List.mapM (processORF i) l = some res ∧
        ∀ e ∈ res.filterMap (fun pr => pr.2), strStartsWith e.1 "no taxid found" = true := by
  intro l
  induction l with
  | nil => exact fun _ => ⟨[], rfl, by simp⟩
  | cons o l ih =>
    intro h
    obtain ⟨pr, hpr, hsent⟩ :=
      processORF_sentinel_only i o (h o (List.mem_cons_self o l))
    obtain ⟨rs, hrs, hrsent⟩ := ih (fun x hx => h x (List.mem_cons_of_mem o hx))
    refine ⟨pr :: rs, by rw [List.mapM_cons, hpr, hrs]; rfl, ?_⟩
    intro e he
    rw [List.filterMap_cons] at he
    cases h2 : pr.2 with
    | none => rw [h2] at he; exact hrsent e he
    | some tt =>
      rw [h2] at he
      rcases List.mem_cons.mp he with he | he
      · exact he ▸ hsent tt h2
      · exact hrsent e he

/-- C7: every completed classification phase yields both report files with
their header lines first and at least one bin-outcome data row in the bin
file; and a bin none of whose ORFs resolves to a taxon id (no hits, or
hits whose accessions miss the accession index) never aborts the phase —
the run completes, recording the non-classification as a report row. -/
theorem c7_files_and_no_crash :
    (∀ (i : RunInput) (files : List String × List String), run i = some files →
      files.1.head? = some headerBin ∧ files.2.head? = some headerORF ∧
        2 ≤ files.1.length) ∧
    (∀ i : RunInput,
      (∀ o ∈ orfsOfRun i, ∀ hits, alookup i.ORF2hits o = some hits →
        hits.filterMap (fun h => alookup i.fastaid2LCAtaxid h.1) = []) →
      ∃ files, run i = some files) := by
  constructor
  · intro i files hrun
    unfold run runFrom at hrun
    split at hrun
    · exact absurd hrun (by simp)
    · rename_i res hres
      split at hrun
      · exact absurd hrun (by simp)
      · rename_i brows hbrows
        simp only [Option.some.injEq] at hrun
        subst hrun
        refine ⟨rfl, rfl, ?_⟩
        have hne := binRowsCore_ne_nil i _ _ brows hbrows
        have : 1 ≤ (brows.map renderRow).length := by
          rw [List.length_map]
          exact Nat.one_le_iff_ne_zero.mpr (fun h0 => hne (List.length_eq_zero.mp h0))
        simpa [List.length_cons] using Nat.succ_le_succ this
  · intro i hno
    obtain ⟨res, hres, hsent⟩ := mapM_procs_sentinel i (orfsOfRun i) hno
    unfold run runFrom
    rw [hres]
    dsimp only
    by_cases hlc : res.filterMap (fun pr => pr.2) = []
    · rw [show binRowsCore i (res.filterMap (fun pr => pr.2)) (totalNORFs i)
          = some [[i.bin, "unclassified", "no hits to database"]] from by
        unfold binRowsCore
        rw [if_pos (List.isEmpty_iff.mpr hlc)]]
      exact ⟨_, rfl⟩
    · rw [binRowsCore_sentinel i _ (totalNORFs i) hlc hsent]
      exact ⟨_, rfl⟩

/-- C7 witness at the concrete no-hit input. -/
theorem c7_witness :
    run cNoHit = some
      ([headerBin, renderRow ["binA", "unclassified", "no hits to database"]],
       [headerORF, renderRow ["orf1", "binA", "ORF has no hit to database"]]) ∧
    ([headerBin, renderRow ["binA", "unclassified", "no hits to database"]] : List String).head?
      = some headerBin ∧
    (∃ files, run cNoHit = some files) := by
  have h1 : run cNoHit = some
      ([headerBin, renderRow ["binA", "unclassified", "no hits to database"]],
       [headerORF, renderRow ["orf1", "binA", "ORF has no hit to database"]]) := by decide
  refine ⟨h1, (c7_files_and_no_crash.1 cNoHit _ h1).1, ?_⟩
  exact c7_files_and_no_crash.2 cNoHit (by decide)

/-! ## Claim C9: starring is purely informational -/

theorem processORF_stars (i : RunInput) (b₁ b₂ : Bool) (o : String) :
    (processORF (setStars i b₁) o).map (fun pr => (maskAt 2 pr.1, pr.2)) =
    (processORF (setStars i b₂) o).map (fun pr => (maskAt 2 pr.1, pr.2)) := by
  unfold processORF setStars lineageFuel
  dsimp only
  cases alookup i.ORF2hits o with
  | none => rfl
  | some hits =>
    dsimp only
    cases find_LCA_for_ORF hits (alookup i.fastaid2LCAtaxid) (alookup i.taxid2parent)
        (i.taxid2parent.length + 1) with
    | none => rfl
    | some tt =>
      dsimp only
      by_cases hs : strStartsWith tt.1 "no taxid found" = true
      · rw [if_pos hs, if_pos hs]
      · rw [if_neg hs, if_neg hs]
        cases findLineage (alookup i.taxid2parent) (i.taxid2parent.length + 1) tt.1 with
        | none => rfl
        | some lineage => rfl

theorem mapM_map_congr {α β γ : Type} (f₁ f₂ : α → Option β) (g : β → γ)
    (hfg : ∀ a, (f₁ a).map g = (f₂ a).map g) :
    ∀ l : List α,
      (List.mapM f₁ l).map (List.map g) = (List.mapM f₂ l).map (List.map g) := by
  intro l
  induction l with
  | nil => rfl
  | cons a l ih =>
    rw [List.mapM_cons, List.mapM_cons]
    have ha := hfg a
    cases h₁ : f₁ a with
    | none =>
      rw [h₁] at ha
      cases h₂ : f₂ a with
      | none => rfl
      | some b₂ => rw [h₂] at ha; simp at ha
    | some b₁ =>
      rw [h₁] at ha
      cases h₂ : f₂ a with
      | none => rw [h₂] at ha; simp at ha
      | some b₂ =>
        rw [h₂] at ha
        simp only [Option.map_some', Option.some.injEq] at ha
        cases hm₁ : List.mapM f₁ l with
        | none =>
          rw [hm₁] at ih
          cases hm₂ : List.mapM f₂ l with
          | none => rfl
          | some rs₂ => rw [hm₂] at ih; simp at ih
        | some rs₁ =>
          rw [hm₁] at ih
          cases hm₂ : List.mapM f₂ l with
          | none => rw [hm₂] at ih; simp at ih
          | some rs₂ =>
            rw [hm₂] at ih
            simp only [Option.map_some', Option.some.injEq] at ih
            simp only [Option.pure_def, Option.bind_eq_bind, Option.some_bind,
              Option.map_some', List.map_cons, Option.some.injEq]
            rw [ha, ih]

theorem binRowsCore_stars (i : RunInput) (b₁ b₂ : Bool) (lcas : List (String × ℚ))
    (total : ℕ) :
    (binRowsCore (setStars i b₁) lcas total).map (List.map (maskAt 3)) =
    (binRowsCore (setStars i b₂) lcas total).map (List.map (maskAt 3)) := by
  unfold binRowsCore setStars lineageFuel
  dsimp only
  by_cases hemp : lcas.isEmpty = true
  · rw [if_pos hemp, if_pos hemp]
  · rw [if_neg hemp, if_neg hemp]
    cases find_weighted_LCA lcas (alookup i.taxid2parent) (i.taxid2parent.length + 1) i.f with
    | none => rfl
    | some r =>
      cases r with
      | noTaxids => rfl
      | noWhitelist => rfl
      | classified lins scoress basedOn =>
        dsimp only
        simp only [Option.map_some', Option.some.injEq, List.map_map]
        congr 1

/-- C9: the ambiguity starring is purely informational.  Flipping the
`no_stars` flag leaves the `(taxid, bitscore)` list aggregated at bin
level untouched, and changes at most the lineage field of each report row:
both reports agree row-for-row on every other field (field 2 is the
lineage-or-reason column of the per-ORF report, field 3 the lineage column
of the per-bin report). -/
theorem c9_stars_frame (i : RunInput) (b₁ b₂ : Bool) :
    (lcasOf (setStars i b₁) = lcasOf (setStars i b₂) ∧
    (orfRowsOf (setStars i b₁)).map (List.map (maskAt 2)) =
      (orfRowsOf (setStars i b₂)).map (List.map (maskAt 2)) ∧
    (binRowsOf (setStars i b₁)).map (List.map (maskAt 3)) =
      (binRowsOf (setStars i b₂)).map (List.map (maskAt 3))) ∧
    (∀ (L amb : List String) (k : ℕ),
      (star_lineage L amb).length = L.length ∧
      ((star_lineage L amb).get? k = L.get? k ∨
        ∃ t, L.get? k = some t ∧ (star_lineage L amb).get? k = some (t ++ "*"))) := by
  refine ⟨?_, ?_⟩
  case refine_2 =>
    intro L amb k
    refine ⟨List.length_map L _, ?_⟩
    rw [star_lineage, List.get?_map]
    cases h : L.get? k with
    | none => exact Or.inl rfl
    | some t =>
      by_cases hc : amb.contains t = true
      · refine Or.inr ⟨t, rfl, ?_⟩
        simp only [Option.map_some']
        rw [if_pos hc]
      · refine Or.inl ?_
        simp only [Option.map_some']
        rw [if_neg hc]
  case refine_1 => ?_
  have horfs : orfsOfRun (setStars i b₂) = orfsOfRun (setStars i b₁) := rfl
  have key := mapM_map_congr (processORF (setStars i b₁)) (processORF (setStars i b₂))
    (fun pr => (maskAt 2 pr.1, pr.2)) (processORF_stars i b₁ b₂) (orfsOfRun (setStars i b₁))
  have hres : (orfResults (setStars i b₁)).map
        (List.map (fun pr => (maskAt 2 pr.1, pr.2))) =
      (orfResults (setStars i b₂)).map (List.map (fun pr => (maskAt 2 pr.1, pr.2))) := by
    unfold orfResults
    rw [horfs]
    exact key
  have hlcas : lcasOf (setStars i b₁) = lcasOf (setStars i b₂) := by
    unfold lcasOf
    have h1 : ∀ j : RunInput, (orfResults j).map
          (fun res => res.filterMap (fun pr => pr.2)) =
        ((orfResults j).map (List.map (fun pr => (maskAt 2 pr.1, pr.2)))).map
          (fun res => res.filterMap (fun pr => pr.2)) := by
      intro j
      rw [Option.map_map]
      congr 1
      funext res
      simp only [Function.comp_apply, List.filterMap_map]
      rfl
    rw [h1, h1, hres]
  refine ⟨hlcas, ?_, ?_⟩
  · unfold orfRowsOf
    have h1 : ∀ j : RunInput, ((orfResults j).map (fun res => res.map (fun pr => pr.1))).map
          (List.map (maskAt 2)) =
        ((orfResults j).map (List.map (fun pr => (maskAt 2 pr.1, pr.2)))).map
          (fun res => res.map (fun pr => pr.1)) := by
      intro j
      rw [Option.map_map, Option.map_map]
      congr 1
      funext res
      simp only [Function.comp_apply, List.map_map]
      rfl
    rw [h1, h1, hres]
  · unfold binRowsOf
    rw [hlcas]
    cases lcasOf (setStars i b₂) with
    | none => rfl
    | some lcas =>
      have ht : totalNORFs (setStars i b₂) = totalNORFs (setStars i b₁) := rfl
      dsimp only
      rw [ht]
      exact binRowsCore_stars i b₁ b₂ lcas (totalNORFs (setStars i b₁))

/-! ## Claim C10: determinism and traversal order -/

/-- C10: the classification phase is a pure function of its input tables;
in particular the order in which the bin fasta lists its contigs is
irrelevant — any permutation of the contig-name list yields byte-identical
report files — because the per-ORF loop visits contigs in lexicographically
sorted order (a sorted permutation of the input list), with each contig's
ORFs in their fixed recorded order. -/
theorem c10_determinism (i : RunInput) (l₁ l₂ : List String) (h : l₁.Perm l₂) :
    run (setContigs i l₁) = run (setContigs i l₂) ∧
    List.Sorted (fun a b : String => a ≤ b) (sortedContigs i) ∧
    (sortedContigs i).Perm i.contig_names := by
  refine ⟨?_, List.sorted_insertionSort _ _, List.perm_insertionSort _ _⟩
  have hsc : sortedContigs (setContigs i l₁) = sortedContigs (setContigs i l₂) := by
    unfold sortedContigs setContigs
    dsimp only
    exact List.eq_of_perm_of_sorted
      (((List.perm_insertionSort _ l₁).trans h).trans
        (List.perm_insertionSort _ l₂).symm)
      (List.sorted_insertionSort _ l₁) (List.sorted_insertionSort _ l₂)
  have horfs : orfsOfRun (setContigs i l₁) = orfsOfRun (setContigs i l₂) := by
    unfold orfsOfRun
    rw [hsc]
    rfl
  have htot : totalNORFs (setContigs i l₁) = totalNORFs (setContigs i l₂) := by
    unfold totalNORFs setContigs
    dsimp only
    exact List.Perm.sum_eq ((h.filterMap _).map _)
  unfold run
  rw [horfs, htot]
  rfl

/-- C10 witness: a concrete permuted pair of contig lists. -/
theorem c10_witness :
    (["b", "a"] : List String).Perm ["a", "b"] ∧
    run (setContigs cNoHit ["b", "a"]) = run (setContigs cNoHit ["a", "b"]) := by
  have hp : (["b", "a"] : List String).Perm ["a", "b"] := List.Perm.swap "a" "b" []
  exact ⟨hp, (c10_determinism cNoHit ["b", "a"] ["a", "b"] hp).1⟩

/-! ## Claim C6: per-bin report format -/

/-- C6: every data row of the per-bin report carries a status that is
exactly "unclassified", "classified", or "classified (k/n)" with
1 ≤ k ≤ n and n ≥ 2 (the numbered form only when multiple classifications
are returned, numbered from 1); classified rows carry the ";"-joined
lineage and the ";"-joined per-ancestor scores, each score formatted by
`fmt2`, which always renders exactly two digits after the decimal
point. -/
theorem c6_bin_report_format :
    (∀ (i : RunInput) (lcas : List (String × ℚ)) (total : ℕ)
      (rows : List (List String)) (r : List String),
      binRowsCore i lcas total = some rows → r ∈ rows →
      (∃ reason, r = [i.bin, "unclassified", reason]) ∨
      (∃ basedOn lin scs, r = [i.bin, "classified", basedOnStr basedOn total,
          joinSemi lin, joinSemi (List.map fmt2 scs)]) ∨
      (∃ k n basedOn lin scs, 1 ≤ k ∧ k ≤ n ∧ 2 ≤ n ∧
        r = [i.bin, "classified (" ++ Nat.repr k ++ "/" ++ Nat.repr n ++ ")",
          basedOnStr basedOn total, joinSemi lin, joinSemi (List.map fmt2 scs)])) ∧
    (∀ q : ℚ, ∃ a b : String, fmt2 q = a ++ "." ++ b ∧ b.length = 2) := by
  constructor
  · intro i lcas total rows r hrows hr
    unfold binRowsCore at hrows
    split at hrows
    · simp only [Option.some.injEq] at hrows
      subst hrows
      simp only [List.mem_singleton] at hr
      exact Or.inl ⟨"no hits to database", hr⟩
    · split at hrows
      · exact absurd hrows (by simp)
      · simp only [Option.some.injEq] at hrows
        subst hrows
        simp only [List.mem_singleton] at hr
        exact Or.inl ⟨"hits not found in taxonomy files", hr⟩
      · simp only [Option.some.injEq] at hrows
        subst hrows
        simp only [List.mem_singleton] at hr
        exact Or.inl ⟨"no lineage reached minimum bit-score support", hr⟩
      · rename_i lins scoress basedOn hfw
        simp only [Option.some.injEq] at hrows
        subst hrows
        obtain ⟨p, hp, hrp⟩ := List.mem_map.mp hr
        have hp1 : p.1 < (lins.zip scoress).length := by
          rw [List.enum_eq_zip_range] at hp
          have := (List.of_mem_zip (by exact hp)).1
          simpa [List.mem_range] using this
        subst hrp
        unfold classifiedRow
        by_cases h1 : lins.length = 1
        · rw [if_pos h1]
          refine Or.inr (Or.inl ⟨basedOn,
            (if i.no_stars then p.2.1 else
              star_lineage p.2.1 i.taxids_with_multiple_offspring).reverse,
            p.2.2.reverse, ?_⟩)
          rw [List.map_reverse]
        · rw [if_neg h1]
          have hlen : (lins.zip scoress).length ≤ lins.length := by
            rw [List.length_zip]
            exact min_le_left _ _
          refine Or.inr (Or.inr ⟨p.1 + 1, lins.length, basedOn,
            (if i.no_stars then p.2.1 else
              star_lineage p.2.1 i.taxids_with_multiple_offspring).reverse,
            p.2.2.reverse, ?_, ?_, ?_, ?_⟩)
          · omega
          · omega
          · omega
          · rw [List.map_reverse]
  · intro q
    exact ⟨Nat.repr ((Int.floor (q * 100 + 1 / 2)).toNat / 100),
      twoDigits ((Int.floor (q * 100 + 1 / 2)).toNat % 100), rfl, rfl⟩

/-- C6 witness at a concrete unclassified row and a concrete score. -/
theorem c6_witness :
    (binRowsCore cSent [("no taxid found", 42)] (totalNORFs cSent) =
      some [["binA", "unclassified", "hits not found in taxonomy files"]] ∧
    (["binA", "unclassified", "hits not found in taxonomy files"] : List String) ∈
      [[("binA" : String), "unclassified", "hits not found in taxonomy files"]] ∧
    ((∃ reason, (["binA", "unclassified", "hits not found in taxonomy files"] : List String)
        = [cSent.bin, "unclassified", reason]) ∨
      (∃ basedOn lin scs, (["binA", "unclassified", "hits not found in taxonomy files"] :
          List String) = [cSent.bin, "classified", basedOnStr basedOn (totalNORFs cSent),
          joinSemi lin, joinSemi (List.map fmt2 scs)]) ∨
      (∃ k n basedOn lin scs, 1 ≤ k ∧ k ≤ n ∧ 2 ≤ n ∧
        (["binA", "unclassified", "hits not found in taxonomy files"] : List String)
          = [cSent.bin, "classified (" ++ Nat.repr k ++ "/" ++ Nat.repr n ++ ")",
            basedOnStr basedOn (totalNORFs cSent), joinSemi lin,
            joinSemi (List.map fmt2 scs)]))) ∧
    (∃ a b : String, fmt2 0 = a ++ "." ++ b ∧ b.length = 2) := by
  have h1 : binRowsCore cSent [("no taxid found", 42)] (totalNORFs cSent) =
      some [["binA", "unclassified", "hits not found in taxonomy files"]] := by decide
  have h2 : (["binA", "unclassified", "hits not found in taxonomy files"] : List String) ∈
      [[("binA" : String), "unclassified", "hits not found in taxonomy files"]] := by decide
  exact ⟨⟨h1, h2, c6_bin_report_format.1 cSent [("no taxid found", 42)] (totalNORFs cSent)
    [["binA", "unclassified", "hits not found in taxonomy files"]]
    ["binA", "unclassified", "hits not found in taxonomy files"] h1 h2⟩,
    c6_bin_report_format.2 0⟩

/-! ## Concrete evaluation of the scenario-2 aggregation -/

theorem rl4_support3 : supportOf rl4 "3" = 2 / 3 := by
  have hf : rl4.filter (fun el => el.2.contains "3") = [(("3", 100), ["3", "2", "1"])] := by
    decide
  rw [supportOf, weightOf, hf]
  simp only [totalWeight, rl4, List.map_cons, List.map_nil, List.sum_cons, List.sum_nil]
  norm_num

theorem rl4_support2 : supportOf rl4 "2" = 1 := by
  have hf : rl4.filter (fun el => el.2.contains "2") = rl4 := by decide
  rw [supportOf, weightOf, hf]
  simp only [totalWeight, rl4, List.map_cons, List.map_nil, List.sum_cons, List.sum_nil]
  norm_num

theorem rl4_support1 : supportOf rl4 "1" = 1 := by
  have hf : rl4.filter (fun el => el.2.contains "1") = rl4 := by decide
  rw [supportOf, weightOf, hf]
  simp only [totalWeight, rl4, List.map_cons, List.map_nil, List.sum_cons, List.sum_nil]
  norm_num

theorem rl4_support4 : supportOf rl4 "4" = 1 / 3 := by
  have hf : rl4.filter (fun el => el.2.contains "4") = [(("4", 50), ["4", "2", "1"])] := by
    decide
  rw [supportOf, weightOf, hf]
  simp only [totalWeight, rl4, List.map_cons, List.map_nil, List.sum_cons, List.sum_nil]
  norm_num

theorem rl4_qualified : qualified rl4 (3 / 10) =
    [("3", ["3", "2", "1"]), ("2", ["2", "1"]), ("1", ["1"]), ("4", ["4", "2", "1"])] := by
  have he : allChains rl4 =
      [("3", ["3", "2", "1"]), ("2", ["2", "1"]), ("1", ["1"]), ("4", ["4", "2", "1"])] := by
    decide
  rw [qualified, he, ← he]
  rw [he]
  have hall : ∀ nc ∈ ([("3", ["3", "2", "1"]), ("2", ["2", "1"]), ("1", ["1"]),
      ("4", ["4", "2", "1"])] : List (String × List String)),
      (nc.2.all (fun a => decide ((3 : ℚ) / 10 ≤ supportOf rl4 a))) = true := by
    intro nc hnc
    simp only [List.mem_cons, List.not_mem_nil, or_false] at hnc
    rcases hnc with h | h | h | h <;> subst h <;>
      simp only [List.all_cons, List.all_nil, rl4_support1, rl4_support2, rl4_support3,
        rl4_support4, Bool.and_eq_true, decide_eq_true_eq, and_true] <;>
      norm_num
  exact List.filter_eq_self.mpr hall

theorem rl4_selected : selectedChains rl4 (3 / 10) =
    [("3", ["3", "2", "1"]), ("4", ["4", "2", "1"])] := by
  rw [selectedChains, rl4_qualified]
  decide

theorem fmt2_two_thirds : fmt2 (2 / 3) = "0.67" := by
  have h1 : Int.floor ((2 : ℚ) / 3 * 100 + 1 / 2) = 67 := by
    norm_num [Int.floor_eq_iff]
  rw [fmt2, h1]
  decide

theorem fmt2_one : fmt2 1 = "1.00" := by
  have h1 : Int.floor ((1 : ℚ) * 100 + 1 / 2) = 100 := by
    norm_num [Int.floor_eq_iff]
  rw [fmt2, h1]
  decide

theorem fmt2_one_third : fmt2 (1 / 3) = "0.33" := by
  have h1 : Int.floor ((1 : ℚ) / 3 * 100 + 1 / 2) = 33 := by
    norm_num [Int.floor_eq_iff]
  rw [fmt2, h1]
  decide

theorem sc4_fwlca : find_weighted_LCA [("3", 100), ("4", 50)] (alookup sc4.taxid2parent)
    (lineageFuel sc4) sc4.f =
    some (.classified [["3", "2", "1"], ["4", "2", "1"]]
      [[2 / 3, 1, 1], [1 / 3, 1, 1]] 2) := by
  have hwl : withLineages (alookup sc4.taxid2parent) (lineageFuel sc4)
      (sentinelFree [("3", 100), ("4", 50)]) = some rl4 := by decide
  have hf : sc4.f = 3 / 10 := rfl
  unfold find_weighted_LCA
  rw [if_neg (by decide), hwl]
  dsimp only
  rw [hf, rl4_selected, if_neg (by decide)]
  have hboc : basedOnCount rl4 [("3", ["3", "2", "1"]), ("4", ["4", "2", "1"])] = 2 := by
    decide
  rw [hboc]
  simp only [List.map_cons, List.map_nil, rl4_support1, rl4_support2, rl4_support3,
    rl4_support4]

theorem sc4_rows : binRowsOf sc4 = some
    [["b", "classified (1/2)", "based on 2/2 ORFs", "1;2;3", "1.00;1.00;0.67"],
     ["b", "classified (2/2)", "based on 2/2 ORFs", "1;2;4", "1.00;1.00;0.33"]] := by
  have hlcas : lcasOf sc4 = some [("3", 100), ("4", 50)] := by decide
  unfold binRowsOf
  rw [hlcas]
  dsimp only
  unfold binRowsCore
  rw [if_neg (by decide), sc4_fwlca]
  dsimp only
  have htot : totalNORFs sc4 = 2 := by decide
  rw [htot]
  have hpairs : ((([["3", "2", "1"], ["4", "2", "1"]] : List (List String)).zip
      ([[2 / 3, 1, 1], [1 / 3, 1, 1]] : List (List ℚ))).enum)
      = [(0, (["3", "2", "1"], [2 / 3, 1, 1])), (1, (["4", "2", "1"], [1 / 3, 1, 1]))] := rfl
  rw [hpairs]
  simp only [List.map_cons, List.map_nil, classifiedRow, List.length_cons, List.length_nil]
  rw [fmt2_two_thirds, fmt2_one, fmt2_one_third]
  decide

/-! ## Claim C4 -/

/-- C4 counterexample: in the scenario-2 bin (taxon 3 with weight 100 and
taxon 4 with weight 50 under the tree 1→1, 2→1, 3→2, 4→2, f = 3/10) two
classifications are returned, but the `based on .. ORFs` field of both
rows reports the shared count 2, not a per-classification count of 1. -/
theorem c4_counterexample :
    binRowsOf sc4 = some
      [["b", "classified (1/2)", "based on 2/2 ORFs", "1;2;3", "1.00;1.00;0.67"],
       ["b", "classified (2/2)", "based on 2/2 ORFs", "1;2;4", "1.00;1.00;0.33"]] ∧
    (["b", "classified (1/2)", "based on 2/2 ORFs", "1;2;3",
      "1.00;1.00;0.67"] : List String).get? 2 = some "based on 2/2 ORFs" ∧
    (["b", "classified (2/2)", "based on 2/2 ORFs", "1;2;4",
      "1.00;1.00;0.33"] : List String).get? 2 = some "based on 2/2 ORFs" ∧
    "based on 2/2 ORFs" ≠ basedOnStr 1 2 :=
  ⟨sc4_rows, by decide, by decide, by decide⟩

/-- C4 amended: the scenario-2 bin with f = 3/10 yields exactly two
classifications ([3,2,1] and [4,2,1] with supports 2/3 and 1/3), and
`based_on_n_ORFs` is a single shared value — the count of entries whose
lineage passes through at least one selected node, here 2 — reported
identically in both classification rows as "based on 2/2 ORFs". -/
theorem c4_amended :
    find_weighted_LCA [("3", 100), ("4", 50)] (alookup sc4.taxid2parent)
        (lineageFuel sc4) sc4.f =
      some (.classified [["3", "2", "1"], ["4", "2", "1"]]
        [[2 / 3, 1, 1], [1 / 3, 1, 1]] 2) ∧
    binRowsOf sc4 = some
      [["b", "classified (1/2)", "based on 2/2 ORFs", "1;2;3", "1.00;1.00;0.67"],
       ["b", "classified (2/2)", "based on 2/2 ORFs", "1;2;4", "1.00;1.00;0.33"]] :=
  ⟨sc4_fwlca, sc4_rows⟩

/-! ## Theory of lineage walks -/

theorem findLineage_shape (parent : String → Option String) :
    ∀ (fuel : ℕ) (t : String) (L : List String),
      findLineage parent fuel t = some L → ∃ r, L = t :: r := by
  intro fuel
  induction fuel with
  | zero => intro t L h; exact absurd h (by simp [findLineage])
  | succ fuel ih =>
    intro t L h
    unfold findLineage at h
    cases hp : parent t with
    | none => rw [hp] at h; exact absurd h (by simp)
    | some p =>
      rw [hp] at h
      dsimp only at h
      by_cases he : p = t
      · rw [if_pos he] at h
        simp only [Option.some.injEq] at h
        exact ⟨[], h.symm⟩
      · rw [if_neg he] at h
        cases hl : findLineage parent fuel p with
        | none => rw [hl] at h; exact absurd h (by simp)
        | some L0 =>
          rw [hl] at h
          simp only [Option.map_some', Option.some.injEq] at h
          exact ⟨L0, h.symm⟩

theorem findLineage_mono (parent : String → Option String) :
    ∀ (fuel fuel' : ℕ) (t : String) (L : List String), fuel ≤ fuel' →
      findLineage parent fuel t = some L → findLineage parent fuel' t = some L := by
  intro fuel
  induction fuel with
  | zero => intro fuel' t L _ hl; exact absurd hl (by simp [findLineage])
  | succ fuel ih =>
    intro fuel' t L hle hl
    obtain ⟨fuel'', rfl⟩ : ∃ k, fuel' = k + 1 := ⟨fuel' - 1, by omega⟩
    unfold findLineage at hl ⊢
    cases hp : parent t with
    | none => rw [hp] at hl; exact absurd hl (by simp)
    | some p =>
      rw [hp] at hl
      dsimp only at hl ⊢
      by_cases he : p = t
      · rw [if_pos he] at hl ⊢; exact hl
      · rw [if_neg he] at hl ⊢
        cases hrec : findLineage parent fuel p with
        | none => rw [hrec] at hl; exact absurd hl (by simp)
        | some L0 =>
          rw [hrec] at hl
          rw [ih fuel'' p L0 (by omega) hrec]
          exact hl

theorem findLineage_root (parent : String → Option String) :
    ∀ (fuel : ℕ) (t : String) (L : List String), findLineage parent fuel t = some L →
      ∃ r, L.getLast? = some r ∧ findLineage parent fuel r = some [r] := by
  intro fuel
  induction fuel with
  | zero => intro t L h; exact absurd h (by simp [findLineage])
  | succ fuel ih =>
    intro t L h
    have hsave := h
    unfold findLineage at h
    cases hp : parent t with
    | none => rw [hp] at h; exact absurd h (by simp)
    | some p =>
      rw [hp] at h
      dsimp only at h
      by_cases he : p = t
      · rw [if_pos he] at h
        simp only [Option.some.injEq] at h
        subst h
        exact ⟨t, rfl, hsave⟩
      · rw [if_neg he] at h
        cases hrec : findLineage parent fuel p with
        | none => rw [hrec] at h; exact absurd h (by simp)
        | some L0 =>
          rw [hrec] at h
          simp only [Option.map_some', Option.some.injEq] at h
          subst h
          obtain ⟨r, hrl, hr⟩ := ih p L0 hrec
          obtain ⟨r0, hshape⟩ := findLineage_shape parent fuel p L0 hrec
          refine ⟨r, ?_, findLineage_mono parent fuel (fuel + 1) r [r] (by omega) hr⟩
          rw [hshape]
          rw [hshape] at hrl
          exact List.getLast?_cons_cons.trans hrl

theorem lineageChains_cons (t : String) (rest : List String) :
    lineageChains (t :: rest) = (t, t :: rest) :: lineageChains rest := rfl

theorem findLineage_chains (parent : String → Option String) :
    ∀ (fuel : ℕ) (t : String) (L : List String), findLineage parent fuel t = some L →
      ∀ p ∈ lineageChains L, findLineage parent fuel p.1 = some p.2 := by
  intro fuel
  induction fuel with
  | zero => intro t L h; exact absurd h (by simp [findLineage])
  | succ fuel ih =>
    intro t L h q hq
    have hsave := h
    unfold findLineage at h
    cases hp : parent t with
    | none => rw [hp] at h; exact absurd h (by simp)
    | some p =>
      rw [hp] at h
      dsimp only at h
      by_cases he : p = t
      · rw [if_pos he] at h
        simp only [Option.some.injEq] at h
        subst h
        rw [lineageChains_cons] at hq
        simp only [lineageChains, List.mem_singleton] at hq
        subst hq
        exact hsave
      · rw [if_neg he] at h
        cases hrec : findLineage parent fuel p with
        | none => rw [hrec] at h; exact absurd h (by simp)
        | some L0 =>
          rw [hrec] at h
          simp only [Option.map_some', Option.some.injEq] at h
          subst h
          rw [lineageChains_cons] at hq
          rcases List.mem_cons.mp hq with hq | hq
          · subst hq; exact hsave
          · exact findLineage_mono parent fuel (fuel + 1) q.1 q.2 (by omega)
              (ih p L0 hrec q hq)

theorem lineageChains_mem_suffix :
    ∀ (L : List String) (p : String × List String), p ∈ lineageChains L →
      p.2 <:+ L ∧ ∃ r, p.2 = p.1 :: r := by
  intro L
  induction L with
  | nil => intro p hp; simp [lineageChains] at hp
  | cons t rest ih =>
    intro p hp
    rw [lineageChains_cons] at hp
    rcases List.mem_cons.mp hp with h | h
    · subst h
      exact ⟨List.suffix_refl _, ⟨rest, rfl⟩⟩
    · obtain ⟨hs, hr⟩ := ih p h
      exact ⟨hs.trans (List.suffix_cons t rest), hr⟩

theorem mem_lineageChains :
    ∀ (L : List String) (u : String), u ∈ L → ∃ C, (u, C) ∈ lineageChains L := by
  intro L
  induction L with
  | nil => intro u hu; simp at hu
  | cons t rest ih =>
    intro u hu
    rcases List.mem_cons.mp hu with h | h
    · refine ⟨t :: rest, ?_⟩
      rw [lineageChains_cons, h]
      exact List.mem_cons_self _ _
    · obtain ⟨C, hC⟩ := ih u h
      exact ⟨C, by rw [lineageChains_cons]; exact List.mem_cons_of_mem _ hC⟩

theorem mem_of_getLast?_eq :
    ∀ (l : List String) (a : String), l.getLast? = some a → a ∈ l := by
  intro l
  induction l with
  | nil => intro a h; simp at h
  | cons x xs ih =>
    intro a h
    cases xs with
    | nil =>
      simp only [List.getLast?_singleton, Option.some.injEq] at h
      subst h
      exact List.mem_singleton_self x
    | cons y ys =>
      rw [List.getLast?_cons_cons] at h
      exact List.mem_cons_of_mem x (ih a h)

/-! ## Theory of the chain index -/

theorem contains_iff_mem {l : List String} {a : String} : l.contains a = true ↔ a ∈ l := by
  simp [List.contains_eq_any_beq, List.any_eq_true, beq_iff_eq]

theorem dedupKeysAux_mem :
    ∀ (l : List (String × List String)) (seen : List String) (p : String × List String),
      p ∈ dedupKeysAux seen l → p ∈ l := by
  intro l
  induction l with
  | nil => intro seen p hp; simp [dedupKeysAux] at hp
  | cons q rest ih =>
    intro seen p hp
    unfold dedupKeysAux at hp
    by_cases hc : seen.contains q.1 = true
    · rw [if_pos hc] at hp
      exact List.mem_cons_of_mem q (ih seen p hp)
    · rw [if_neg hc] at hp
      rcases List.mem_cons.mp hp with h | h
      · exact h ▸ List.mem_cons_self q rest
      · exact List.mem_cons_of_mem q (ih _ p h)

theorem dedupKeysAux_not_seen :
    ∀ (l : List (String × List String)) (seen : List String) (p : String × List String),
      p ∈ dedupKeysAux seen l → seen.contains p.1 = false := by
  intro l
  induction l with
  | nil => intro seen p hp; simp [dedupKeysAux] at hp
  | cons q rest ih =>
    intro seen p hp
    unfold dedupKeysAux at hp
    by_cases hc : seen.contains q.1 = true
    · rw [if_pos hc] at hp
      exact ih seen p hp
    · rw [if_neg hc] at hp
      rcases List.mem_cons.mp hp with h | h
      · rw [h]
        exact Bool.not_eq_true _ ▸ (Bool.eq_false_iff.mpr hc)
      · have := ih _ p h
        cases hcp : seen.contains p.1 with
        | false => rfl
        | true =>
          exfalso
          have hcontra : (q.1 :: seen).contains p.1 = true := by
            rw [contains_iff_mem] at hcp ⊢
            exact List.mem_cons_of_mem _ hcp
          rw [this] at hcontra
          exact Bool.false_ne_true hcontra

theorem dedupKeysAux_keys_nodup :
    ∀ (l : List (String × List String)) (seen : List String),
      ((dedupKeysAux seen l).map (fun p => p.1)).Nodup := by
  intro l
  induction l with
  | nil => intro seen; simp [dedupKeysAux]
  | cons q rest ih =>
    intro seen
    unfold dedupKeysAux
    by_cases hc : seen.contains q.1 = true
    · rw [if_pos hc]
      exact ih seen
    · rw [if_neg hc]
      rw [List.map_cons, List.nodup_cons]
      refine ⟨?_, ih _⟩
      intro hmem
      obtain ⟨p, hp, hpq⟩ := List.mem_map.mp hmem
      have h1 := dedupKeysAux_not_seen rest (q.1 :: seen) p hp
      rw [hpq] at h1
      have h2 : (q.1 :: seen).contains q.1 = true :=
        contains_iff_mem.mpr (List.mem_cons_self _ _)
      rw [h1] at h2
      exact Bool.false_ne_true h2

theorem dedupKeysAux_covers :
    ∀ (l : List (String × List String)) (seen : List String) (k : String),
      k ∈ l.map (fun p => p.1) → seen.contains k = false →
      ∃ C, (k, C) ∈ dedupKeysAux seen l := by
  intro l
  induction l with
  | nil => intro seen k hk _; simp at hk
  | cons q rest ih =>
    intro seen k hk hs
    unfold dedupKeysAux
    rw [List.map_cons] at hk
    by_cases hc : seen.contains q.1 = true
    · rw [if_pos hc]
      rcases List.mem_cons.mp hk with h | h
      · subst h
        exact absurd hc (by rw [hs]; exact Bool.false_ne_true)
      · exact ih seen k h hs
    · rw [if_neg hc]
      by_cases hkq : k = q.1
      · refine ⟨q.2, ?_⟩
        have : (k, q.2) = q := by rw [hkq]
        rw [this]
        exact List.mem_cons_self q _
      · rcases List.mem_cons.mp hk with h | h
        · exact absurd h hkq
        · have hs' : (q.1 :: seen).contains k = false := by
            cases hq : (q.1 :: seen).contains k with
            | false => rfl
            | true =>
              exfalso
              rw [contains_iff_mem] at hq
              rcases List.mem_cons.mp hq with h' | h'
              · exact hkq h'
              · rw [contains_iff_mem.mpr h'] at hs
                simp at hs
          obtain ⟨C, hC⟩ := ih (q.1 :: seen) k h hs'
          exact ⟨C, List.mem_cons_of_mem q hC⟩

theorem allChains_sound (parent : String → Option String) (fuel : ℕ)
    (rl : List ((String × ℚ) × List String))
    (hwf : ∀ p ∈ rl, findLineage parent fuel p.1.1 = some p.2) :
    ∀ nc ∈ allChains rl, findLineage parent fuel nc.1 = some nc.2 := by
  intro nc hnc
  have hmem := dedupKeysAux_mem _ _ _ hnc
  obtain ⟨el, hel, hch⟩ := List.mem_flatMap.mp hmem
  exact findLineage_chains parent fuel el.1.1 el.2 (hwf el hel) nc hch

theorem allChains_covers (rl : List ((String × ℚ) × List String)) (u : String)
    (el : (String × ℚ) × List String) (hel : el ∈ rl) (hu : u ∈ el.2) :
    ∃ C, (u, C) ∈ allChains rl := by
  apply dedupKeysAux_covers _ [] u ?_ rfl
  obtain ⟨C, hC⟩ := mem_lineageChains el.2 u hu
  exact List.mem_map.mpr ⟨(u, C),
    List.mem_flatMap.mpr ⟨el, hel, hC⟩, rfl⟩

theorem allChains_keys_nodup (rl : List ((String × ℚ) × List String)) :
    ((allChains rl).map (fun p => p.1)).Nodup :=
  dedupKeysAux_keys_nodup _ []

/-! ## Weight and sum lemmas -/

theorem totalWeight_cons (p : (String × ℚ) × List String)
    (rest : List ((String × ℚ) × List String)) :
    totalWeight (p :: rest) = p.1.2 + totalWeight rest := by
  simp [totalWeight]

theorem totalWeight_pos (rl : List ((String × ℚ) × List String)) (hne : rl ≠ [])
    (hw : ∀ p ∈ rl, 0 < p.1.2) : 0 < totalWeight rl := by
  cases rl with
  | nil => exact absurd rfl hne
  | cons p rest =>
    rw [totalWeight_cons]
    have h1 : 0 < p.1.2 := hw p (List.mem_cons_self _ _)
    have h2 : 0 ≤ totalWeight rest := by
      apply List.sum_nonneg
      intro x hx
      obtain ⟨q, hq, rfl⟩ := List.mem_map.mp hx
      exact le_of_lt (hw q (List.mem_cons_of_mem _ hq))
    linarith

theorem weightOf_cons (p : (String × ℚ) × List String)
    (rest : List ((String × ℚ) × List String)) (n : String) :
    weightOf (p :: rest) n = (if p.2.contains n then p.1.2 else 0) + weightOf rest n := by
  unfold weightOf
  rw [List.filter_cons]
  by_cases h : p.2.contains n = true
  · rw [if_pos h, if_pos h, totalWeight_cons]
  · rw [if_neg h, if_neg h, zero_add]

theorem weightOf_full (rl : List ((String × ℚ) × List String)) (n : String)
    (h : ∀ p ∈ rl, p.2.contains n = true) : weightOf rl n = totalWeight rl := by
  rw [weightOf, List.filter_eq_self.mpr h]

theorem sum_map_add {α : Type} (l : List α) (f g : α → ℚ) :
    (l.map (fun x => f x + g x)).sum = (l.map f).sum + (l.map g).sum := by
  induction l with
  | nil => simp
  | cons x l ih => simp [ih]; ring

theorem sum_eq_zero_of_forall {α : Type} (l : List α) (f : α → ℚ)
    (h : ∀ x ∈ l, f x = 0) : (l.map f).sum = 0 := by
  apply List.sum_eq_zero
  intro x hx
  obtain ⟨y, hy, rfl⟩ := List.mem_map.mp hx
  exact h y hy

theorem indicator_sum_le (S : List (String × List String)) (q : String × List String → Bool)
    (w : ℚ) (hw : 0 ≤ w) (hc : (S.filter q).length ≤ 1) :
    (S.map (fun x => if q x then w else 0)).sum ≤ w := by
  induction S with
  | nil => simpa using hw
  | cons x S ih =>
    rw [List.filter_cons] at hc
    rw [List.map_cons, List.sum_cons]
    by_cases hq : q x = true
    · rw [if_pos hq] at hc ⊢
      have hfe : S.filter q = [] := by
        rw [List.length_cons] at hc
        exact List.length_eq_zero.mp (by omega)
      have hz : (S.map (fun y => if q y then w else 0)).sum = 0 := by
        apply sum_eq_zero_of_forall
        intro y hy
        rw [if_neg]
        intro hqy
        have : y ∈ S.filter q := List.mem_filter.mpr ⟨hy, hqy⟩
        rw [hfe] at this
        simp at this
      rw [hz]
      linarith
    · rw [if_neg hq] at hc ⊢
      have := ih hc
      linarith

theorem sum_weightOf_le (sel : List (String × List String)) :
    ∀ rl : List ((String × ℚ) × List String),
      (∀ p ∈ rl, 0 ≤ p.1.2) →
      (∀ p ∈ rl, (sel.filter (fun nc => p.2.contains nc.1)).length ≤ 1) →
      (sel.map (fun nc => weightOf rl nc.1)).sum ≤ totalWeight rl := by
  intro rl
  induction rl with
  | nil =>
    intro _ _
    have h0 : (sel.map (fun nc => weightOf ([] : List ((String × ℚ) × List String)) nc.1)).sum
        = 0 := by
      apply sum_eq_zero_of_forall
      intro nc _
      rfl
    rw [h0]
    exact le_of_eq rfl
  | cons p rest ih =>
    intro hw hc
    have h1 : (sel.map (fun nc => weightOf (p :: rest) nc.1)).sum =
        (sel.map (fun nc => if p.2.contains nc.1 then p.1.2 else 0)).sum +
        (sel.map (fun nc => weightOf rest nc.1)).sum := by
      rw [← sum_map_add]
      congr 1
      exact List.map_congr_left (fun nc _ => weightOf_cons p rest nc.1)
    rw [h1, totalWeight_cons]
    have h2 := indicator_sum_le sel (fun nc => p.2.contains nc.1) p.1.2
      (hw p (List.mem_cons_self _ _)) (hc p (List.mem_cons_self _ _))
    have h3 := ih (fun x hx => hw x (List.mem_cons_of_mem _ hx))
      (fun x hx => hc x (List.mem_cons_of_mem _ hx))
    linarith

theorem sum_ge_card_mul (S : List (String × List String)) (g : String × List String → ℚ)
    (c : ℚ) (h : ∀ x ∈ S, c ≤ g x) : (S.length : ℚ) * c ≤ (S.map g).sum := by
  induction S with
  | nil => simp
  | cons x S ih =>
    rw [List.map_cons, List.sum_cons, List.length_cons]
    have h1 := ih (fun y hy => h y (List.mem_cons_of_mem _ hy))
    have h2 := h x (List.mem_cons_self _ _)
    push_cast
    linarith

theorem exists_max_chain (S : List (String × List String)) (hne : S ≠ []) :
    ∃ x ∈ S, ∀ y ∈ S, y.2.length ≤ x.2.length := by
  induction S with
  | nil => exact absurd rfl hne
  | cons a S ih =>
    by_cases h : S = []
    · subst h
      refine ⟨a, List.mem_cons_self _ _, ?_⟩
      intro y hy
      rcases List.mem_cons.mp hy with rfl | hy
      · exact le_refl _
      · simp at hy
    · obtain ⟨x, hx, hmax⟩ := ih h
      by_cases hc : x.2.length ≤ a.2.length
      · refine ⟨a, List.mem_cons_self _ _, ?_⟩
        intro y hy
        rcases List.mem_cons.mp hy with rfl | hy
        · exact le_refl _
        · exact (hmax y hy).trans hc
      · refine ⟨x, List.mem_cons_of_mem _ hx, ?_⟩
        intro y hy
        rcases List.mem_cons.mp hy with rfl | hy
        · exact le_of_not_le hc
        · exact hmax y hy

/-! ## Structure of the selected chains -/

theorem chains_comparable (parent : String → Option String) (fuel : ℕ)
    (t : String) (L : List String) (u v : String) (Cu Cv : List String)
    (hL : findLineage parent fuel t = some L)
    (hu : findLineage parent fuel u = some Cu)
    (hv : findLineage parent fuel v = some Cv)
    (hmu : u ∈ L) (hmv : v ∈ L) : u ∈ Cv ∨ v ∈ Cu := by
  obtain ⟨Cu', hCu'⟩ := mem_lineageChains L u hmu
  have h1 := findLineage_chains parent fuel t L hL (u, Cu') hCu'
  have hCueq : Cu' = Cu := by
    rw [hu] at h1
    exact (Option.some_inj.mp h1).symm
  obtain ⟨Cv', hCv'⟩ := mem_lineageChains L v hmv
  have h2 := findLineage_chains parent fuel t L hL (v, Cv') hCv'
  have hCveq : Cv' = Cv := by
    rw [hv] at h2
    exact (Option.some_inj.mp h2).symm
  have hsu : Cu <:+ L := by
    have := (lineageChains_mem_suffix L (u, Cu') hCu').1
    rwa [hCueq] at this
  have hsv : Cv <:+ L := by
    have := (lineageChains_mem_suffix L (v, Cv') hCv').1
    rwa [hCveq] at this
  rcases List.suffix_or_suffix_of_suffix hsu hsv with h | h
  · left
    obtain ⟨r, hr⟩ := findLineage_shape parent fuel u Cu hu
    exact h.subset (hr ▸ List.mem_cons_self u r)
  · right
    obtain ⟨r, hr⟩ := findLineage_shape parent fuel v Cv hv
    exact h.subset (hr ▸ List.mem_cons_self v r)

theorem qualified_sublist (rl : List ((String × ℚ) × List String)) (f : ℚ) :
    (qualified rl f).Sublist (allChains rl) :=
  List.filter_sublist _

theorem selectedChains_sublist (rl : List ((String × ℚ) × List String)) (f : ℚ) :
    (selectedChains rl f).Sublist (allChains rl) :=
  (List.filter_sublist _).trans (List.filter_sublist _)

theorem selectedChains_mem_qualified {rl : List ((String × ℚ) × List String)} {f : ℚ}
    {nc : String × List String} (h : nc ∈ selectedChains rl f) : nc ∈ qualified rl f :=
  (List.mem_filter.mp h).1

theorem selectedChains_no_descendant {rl : List ((String × ℚ) × List String)} {f : ℚ}
    {nc mc : String × List String} (h : nc ∈ selectedChains rl f)
    (hmc : mc ∈ qualified rl f) (hne : mc.1 ≠ nc.1) : nc.1 ∉ mc.2 := by
  intro hmem
  have h2 := (List.mem_filter.mp h).2
  rw [Bool.not_eq_true'] at h2
  have h3 : (qualified rl f).any (fun mc => mc.1 != nc.1 && mc.2.contains nc.1) = true :=
    List.any_eq_true.mpr ⟨mc, hmc, by
      rw [Bool.and_eq_true, bne_iff_ne]
      exact ⟨hne, contains_iff_mem.mpr hmem⟩⟩
  rw [h2] at h3
  exact Bool.false_ne_true h3

theorem mem_qualified_support {rl : List ((String × ℚ) × List String)} {f : ℚ}
    {nc : String × List String} (h : nc ∈ qualified rl f) :
    nc ∈ allChains rl ∧ ∀ a ∈ nc.2, f ≤ supportOf rl a := by
  obtain ⟨h1, h2⟩ := List.mem_filter.mp h
  exact ⟨h1, fun a ha => of_decide_eq_true (List.all_eq_true.mp h2 a ha)⟩

theorem two_mem_of_one_lt_length {α : Type} (F : List α) (h : 1 < F.length) :
    ∃ a b rest, F = a :: b :: rest := by
  cases F with
  | nil => simp at h
  | cons a F' =>
    cases F' with
    | nil => simp at h
    | cons b rest => exact ⟨a, b, rest, rfl⟩

theorem selected_filter_len_le_one (parent : String → Option String) (fuel : ℕ)
    (rl : List ((String × ℚ) × List String)) (f : ℚ)
    (hwf : ∀ p ∈ rl, findLineage parent fuel p.1.1 = some p.2)
    (el : (String × ℚ) × List String) (hel : el ∈ rl) :
    ((selectedChains rl f).filter (fun nc => el.2.contains nc.1)).length ≤ 1 := by
  by_contra hlt
  push_neg at hlt
  set F := (selectedChains rl f).filter (fun nc => el.2.contains nc.1) with hF
  obtain ⟨a, b, rest, hFeq⟩ := two_mem_of_one_lt_length F hlt
  have ha : a ∈ F := by rw [hFeq]; exact List.mem_cons_self _ _
  have hb : b ∈ F := by rw [hFeq]; exact List.mem_cons_of_mem _ (List.mem_cons_self _ _)
  have hFsub : F.Sublist (allChains rl) :=
    (List.filter_sublist _).trans (selectedChains_sublist rl f)
  have hFnodup : (F.map (fun p => p.1)).Nodup :=
    (hFsub.map (fun p => p.1)).nodup (allChains_keys_nodup rl)
  have hab : a.1 ≠ b.1 := by
    rw [hFeq, List.map_cons, List.map_cons] at hFnodup
    have := (List.nodup_cons.mp hFnodup).1
    intro hcontra
    exact this (hcontra ▸ List.mem_cons_self _ _)
  have haSel : a ∈ selectedChains rl f := (List.mem_filter.mp ha).1
  have hbSel : b ∈ selectedChains rl f := (List.mem_filter.mp hb).1
  have haIn : a.1 ∈ el.2 := contains_iff_mem.mp (List.mem_filter.mp ha).2
  have hbIn : b.1 ∈ el.2 := contains_iff_mem.mp (List.mem_filter.mp hb).2
  have haCh := allChains_sound parent fuel rl hwf a
    ((mem_qualified_support (selectedChains_mem_qualified haSel)).1)
  have hbCh := allChains_sound parent fuel rl hwf b
    ((mem_qualified_support (selectedChains_mem_qualified hbSel)).1)
  rcases chains_comparable parent fuel el.1.1 el.2 a.1 b.1 a.2 b.2
      (hwf el hel) haCh hbCh haIn hbIn with h | h
  · exact selectedChains_no_descendant haSel (selectedChains_mem_qualified hbSel)
      (Ne.symm hab) h
  · exact selectedChains_no_descendant hbSel (selectedChains_mem_qualified haSel) hab h

theorem selectedChains_card_bound (parent : String → Option String) (fuel : ℕ)
    (rl : List ((String × ℚ) × List String)) (f : ℚ)
    (hwf : ∀ p ∈ rl, findLineage parent fuel p.1.1 = some p.2)
    (hw : ∀ p ∈ rl, 0 ≤ p.1.2) (htot : 0 < totalWeight rl) :
    ((selectedChains rl f).length : ℚ) * f ≤ 1 := by
  have hsup : ∀ nc ∈ selectedChains rl f, f * totalWeight rl ≤ weightOf rl nc.1 := by
    intro nc hnc
    have hq := selectedChains_mem_qualified hnc
    obtain ⟨hall, hsupp⟩ := mem_qualified_support hq
    have hchain := allChains_sound parent fuel rl hwf nc hall
    obtain ⟨r, hr⟩ := findLineage_shape parent fuel nc.1 nc.2 hchain
    have hself : nc.1 ∈ nc.2 := hr ▸ List.mem_cons_self _ _
    have hle : f ≤ supportOf rl nc.1 := hsupp nc.1 hself
    rw [supportOf] at hle
    calc f * totalWeight rl ≤ supportOf rl nc.1 * totalWeight rl := by
          rw [supportOf]
          exact mul_le_mul_of_nonneg_right (by rw [← supportOf]; exact hle) (le_of_lt htot)
      _ = weightOf rl nc.1 := by
          rw [supportOf, div_mul_cancel₀ _ (ne_of_gt htot)]
  have h1 : ((selectedChains rl f).length : ℚ) * (f * totalWeight rl) ≤
      ((selectedChains rl f).map (fun nc => weightOf rl nc.1)).sum :=
    sum_ge_card_mul _ _ _ hsup
  have h2 : ((selectedChains rl f).map (fun nc => weightOf rl nc.1)).sum ≤ totalWeight rl :=
    sum_weightOf_le _ rl hw (fun p hp => selected_filter_len_le_one parent fuel rl f hwf p hp)
  have h3 : ((selectedChains rl f).length : ℚ) * f * totalWeight rl ≤ 1 * totalWeight rl := by
    rw [one_mul, mul_assoc]
    linarith
  exact le_of_mul_le_mul_right h3 htot

theorem selectedChains_ne_nil (parent : String → Option String) (fuel : ℕ)
    (rl : List ((String × ℚ) × List String)) (f : ℚ) (r0 : String)
    (hwf : ∀ p ∈ rl, findLineage parent fuel p.1.1 = some p.2)
    (hroot : ∀ p ∈ rl, p.2.getLast? = some r0)
    (hne : rl ≠ []) (htot : 0 < totalWeight rl) (hf : f ≤ 1) :
    selectedChains rl f ≠ [] := by
  obtain ⟨p0, hp0⟩ : ∃ p, p ∈ rl := by
    cases rl with
    | nil => exact absurd rfl hne
    | cons p rest => exact ⟨p, List.mem_cons_self _ _⟩
  have hr0mem : r0 ∈ p0.2 := mem_of_getLast?_eq p0.2 r0 (hroot p0 hp0)
  obtain ⟨C, hC⟩ := allChains_covers rl r0 p0 hp0 hr0mem
  have hCfl := allChains_sound parent fuel rl hwf (r0, C) hC
  obtain ⟨r, hrl0, hr⟩ := findLineage_root parent fuel p0.1.1 p0.2 (hwf p0 hp0)
  have hrr0 : r = r0 := by
    rw [hroot p0 hp0] at hrl0
    exact (Option.some_inj.mp hrl0).symm
  subst hrr0
  have hCeq : C = [r] := by
    rw [hr] at hCfl
    exact (Option.some_inj.mp hCfl).symm
  have hsup : supportOf rl r = 1 := by
    rw [supportOf, weightOf_full rl r ?_, div_self (ne_of_gt htot)]
    intro p hp
    exact contains_iff_mem.mpr (mem_of_getLast?_eq p.2 r (hroot p hp))
  have hq : (r, C) ∈ qualified rl f := by
    rw [qualified]
    refine List.mem_filter.mpr ⟨hC, ?_⟩
    rw [hCeq]
    simp only [List.all_cons, List.all_nil, Bool.and_true]
    rw [hsup]
    exact decide_eq_true hf
  have hqne : qualified rl f ≠ [] := fun h => by rw [h] at hq; simp at hq
  obtain ⟨x, hx, hmax⟩ := exists_max_chain _ hqne
  have hxsel : x ∈ selectedChains rl f := by
    rw [selectedChains]
    refine List.mem_filter.mpr ⟨hx, ?_⟩
    rw [Bool.not_eq_true']
    cases hany : (qualified rl f).any (fun mc => mc.1 != x.1 && mc.2.contains x.1) with
    | false => rfl
    | true =>
      exfalso
      obtain ⟨mc, hmc, hcond⟩ := List.any_eq_true.mp hany
      rw [Bool.and_eq_true, bne_iff_ne] at hcond
      obtain ⟨hne1, hcont⟩ := hcond
      have hxin : x.1 ∈ mc.2 := contains_iff_mem.mp hcont
      have hmcCh := allChains_sound parent fuel rl hwf mc (mem_qualified_support hmc).1
      have hxCh := allChains_sound parent fuel rl hwf x (mem_qualified_support hx).1
      obtain ⟨Cx', hCx'⟩ := mem_lineageChains mc.2 x.1 hxin
      have h1 := findLineage_chains parent fuel mc.1 mc.2 hmcCh (x.1, Cx') hCx'
      have hCxeq : Cx' = x.2 := by
        rw [hxCh] at h1
        exact (Option.some_inj.mp h1).symm
      have hsuf : x.2 <:+ mc.2 := by
        have := (lineageChains_mem_suffix mc.2 (x.1, Cx') hCx').1
        rwa [hCxeq] at this
      have hlt : x.2.length < mc.2.length := by
        rcases Nat.lt_or_ge x.2.length mc.2.length with h | h
        · exact h
        · exfalso
          have heq : x.2 = mc.2 :=
            hsuf.eq_of_length (le_antisymm (hsuf.length_le) h)
          obtain ⟨rx, hrx⟩ := findLineage_shape parent fuel x.1 x.2 hxCh
          obtain ⟨rm, hrm⟩ := findLineage_shape parent fuel mc.1 mc.2 hmcCh
          rw [hrx, hrm] at heq
          exact hne1 (List.head_eq_of_cons_eq heq.symm)
      exact absurd (hmax mc hmc) (by omega)
  exact List.ne_nil_of_mem hxsel

theorem withLineages_some (parent : String → Option String) (fuel : ℕ) :
    ∀ entries : List (String × ℚ),
      (∀ e ∈ entries, ∃ L, findLineage parent fuel e.1 = some L) →
      ∃ rl, withLineages parent fuel entries = some rl ∧
        rl.map (fun p => p.1) = entries ∧
        (∀ p ∈ rl, findLineage parent fuel p.1.1 = some p.2) := by
  intro entries
  induction entries with
  | nil => exact fun _ => ⟨[], rfl, rfl, by simp⟩
  | cons e rest ih =>
    intro h
    obtain ⟨L, hL⟩ := h e (List.mem_cons_self _ _)
    obtain ⟨rl, hrl, hmap, hwf⟩ := ih (fun x hx => h x (List.mem_cons_of_mem _ hx))
    refine ⟨(e, L) :: rl, ?_, ?_, ?_⟩
    · unfold withLineages at hrl ⊢
      rw [List.mapM_cons, hL, hrl]
      rfl
    · rw [List.map_cons, hmap]
    · intro p hp
      rcases List.mem_cons.mp hp with hp | hp
      · rw [hp]
        exact hL
      · exact hwf p hp

/-! ## Claim C3: amended theorem -/

/-- C3 amended: with the spec's selection rule (support at least `f` along
the whole ancestor chain), a bin with at least one resolved ORF, positive
bit-score weights, and a common root yields exactly one classification
whenever f > 0.5 (at f = 0.5 exactly, two sibling classifications can tie,
see the counterexample); and for 0 < f at most ⌊1/f⌋ classifications are
ever returned. -/
theorem c3_amended (entries : List (String × ℚ)) (parent : String → Option String)
    (fuel : ℕ) (f : ℚ) (r0 : String)
    (hne : sentinelFree entries ≠ [])
    (hw : ∀ e ∈ sentinelFree entries, 0 < e.2)
    (hr : ∀ e ∈ sentinelFree entries, ∃ L, findLineage parent fuel e.1 = some L ∧
      L.getLast? = some r0)
    (hf1 : f ≤ 1) :
    (1 / 2 < f → ∃ L s k, find_weighted_LCA entries parent fuel f =
      some (.classified [L] [s] k)) ∧
    (0 < f → ∀ lins scoress k,
      find_weighted_LCA entries parent fuel f = some (.classified lins scoress k) →
      lins.length ≤ (Int.floor (1 / f)).toNat) := by
  obtain ⟨rl, hwl, hmap, hwf⟩ := withLineages_some parent fuel (sentinelFree entries)
    (fun e he => (hr e he).imp (fun L hL => hL.1))
  have hmem1 : ∀ p ∈ rl, p.1 ∈ sentinelFree entries := by
    intro p hp
    rw [← hmap]
    exact List.mem_map_of_mem _ hp
  have hwrl : ∀ p ∈ rl, 0 < p.1.2 := fun p hp => hw p.1 (hmem1 p hp)
  have hroot : ∀ p ∈ rl, p.2.getLast? = some r0 := by
    intro p hp
    obtain ⟨L, hL, hlast⟩ := hr p.1 (hmem1 p hp)
    have := hwf p hp
    rw [hL] at this
    rw [← Option.some_inj.mp this]
    exact hlast
  have hrlne : rl ≠ [] := by
    intro h
    rw [h] at hmap
    exact hne hmap.symm
  have htot : 0 < totalWeight rl := totalWeight_pos rl hrlne hwrl
  constructor
  · intro hf2
    have hfpos : 0 < f := lt_trans (by norm_num) hf2
    have hselne := selectedChains_ne_nil parent fuel rl f r0 hwf hroot hrlne htot hf1
    have hbound := selectedChains_card_bound parent fuel rl f hwf
      (fun p hp => le_of_lt (hwrl p hp)) htot
    have hlen1 : (selectedChains rl f).length = 1 := by
      have hge1 : 1 ≤ (selectedChains rl f).length :=
        Nat.one_le_iff_ne_zero.mpr (fun h0 => hselne (List.length_eq_zero.mp h0))
      by_contra hne1
      have hge2 : 2 ≤ (selectedChains rl f).length := by omega
      have h2f : (2 : ℚ) * f ≤ ((selectedChains rl f).length : ℚ) * f := by
        apply mul_le_mul_of_nonneg_right _ (le_of_lt hfpos)
        exact_mod_cast hge2
      linarith
    obtain ⟨nc, hnc⟩ := List.length_eq_one.mp hlen1
    refine ⟨nc.2, nc.2.map (supportOf rl), basedOnCount rl (selectedChains rl f), ?_⟩
    unfold find_weighted_LCA
    rw [if_neg (fun hemp => hne (List.isEmpty_iff.mp hemp)), hwl]
    dsimp only
    rw [if_neg (by rw [hnc]; simp)]
    rw [hnc]
    simp only [List.map_cons, List.map_nil]
  · intro hfpos lins scoress k hfw
    obtain ⟨rl', hwl', hselne', hlins, _, _⟩ :=
      fwlca_classified_shape entries parent fuel f lins scoress k hfw
    have hrleq : rl' = rl := by
      rw [hwl] at hwl'
      exact (Option.some_inj.mp hwl').symm
    subst hrleq
    have hbound := selectedChains_card_bound parent fuel rl' f hwf
      (fun p hp => le_of_lt (hwrl p hp)) htot
    have h1 : (((selectedChains rl' f).length : ℚ)) ≤ 1 / f := by
      rw [le_div_iff₀ hfpos]
      exact hbound
    have h2 : ((selectedChains rl' f).length : ℤ) ≤ Int.floor (1 / f) :=
      Int.le_floor.mpr (by exact_mod_cast h1)
    have h3 : (selectedChains rl' f).length ≤ (Int.floor (1 / f)).toNat := by
      have h0 : (0 : ℤ) ≤ Int.floor (1 / f) :=
        le_trans (Int.ofNat_nonneg _) h2
      exact (Int.le_toNat h0).mpr h2
    rw [hlins, List.length_map]
    exact h3

/-! ## Claim C3: counterexample at f = 1/2 -/

/-- Scenario bin with two equal-weight sibling ORFs, classified with
f = 1/2 exactly. -/
def sc3 : RunInput :=
  { bin := "b"
    contig_names := ["c"]
    contig2ORFs := [("c", ["o1", "o2"])]
    ORF2hits := [("o1", [("a1", 50)]), ("o2", [("a2", 50)])]
    fastaid2LCAtaxid := [("a1", "3"), ("a2", "4")]
    taxid2parent := exParents
    taxids_with_multiple_offspring := ["2"]
    f := 1 / 2
    no_stars := true }

/-- The lineage-expanded aggregation entries of `sc3`. -/
def rl3 : List ((String × ℚ) × List String) :=
  [(("3", 50), ["3", "2", "1"]), (("4", 50), ["4", "2", "1"])]

theorem rl3_support3 : supportOf rl3 "3" = 1 / 2 := by
  have hf : rl3.filter (fun el => el.2.contains "3") = [(("3", 50), ["3", "2", "1"])] := by
    decide
  rw [supportOf, weightOf, hf]
  simp only [totalWeight, rl3, List.map_cons, List.map_nil, List.sum_cons, List.sum_nil]
  norm_num

theorem rl3_support2 : supportOf rl3 "2" = 1 := by
  have hf : rl3.filter (fun el => el.2.contains "2") = rl3 := by decide
  rw [supportOf, weightOf, hf]
  simp only [totalWeight, rl3, List.map_cons, List.map_nil, List.sum_cons, List.sum_nil]
  norm_num

theorem rl3_support1 : supportOf rl3 "1" = 1 := by
  have hf : rl3.filter (fun el => el.2.contains "1") = rl3 := by decide
  rw [supportOf, weightOf, hf]
  simp only [totalWeight, rl3, List.map_cons, List.map_nil, List.sum_cons, List.sum_nil]
  norm_num

theorem rl3_support4 : supportOf rl3 "4" = 1 / 2 := by
  have hf : rl3.filter (fun el => el.2.contains "4") = [(("4", 50), ["4", "2", "1"])] := by
    decide
  rw [supportOf, weightOf, hf]
  simp only [totalWeight, rl3, List.map_cons, List.map_nil, List.sum_cons, List.sum_nil]
  norm_num

theorem rl3_qualified : qualified rl3 (1 / 2) =
    [("3", ["3", "2", "1"]), ("2", ["2", "1"]), ("1", ["1"]), ("4", ["4", "2", "1"])] := by
  have he : allChains rl3 =
      [("3", ["3", "2", "1"]), ("2", ["2", "1"]), ("1", ["1"]), ("4", ["4", "2", "1"])] := by
    decide
  rw [qualified, he]
  have hall : ∀ nc ∈ ([("3", ["3", "2", "1"]), ("2", ["2", "1"]), ("1", ["1"]),
      ("4", ["4", "2", "1"])] : List (String × List String)),
      (nc.2.all (fun a => decide ((1 : ℚ) / 2 ≤ supportOf rl3 a))) = true := by
    intro nc hnc
    simp only [List.mem_cons, List.not_mem_nil, or_false] at hnc
    rcases hnc with h | h | h | h <;> subst h <;>
      simp only [List.all_cons, List.all_nil, rl3_support1, rl3_support2, rl3_support3,
        rl3_support4, Bool.and_eq_true, decide_eq_true_eq, and_true] <;>
      norm_num
  exact List.filter_eq_self.mpr hall

theorem rl3_selected : selectedChains rl3 (1 / 2) =
    [("3", ["3", "2", "1"]), ("4", ["4", "2", "1"])] := by
  rw [selectedChains, rl3_qualified]
  decide

theorem sc3_fwlca : find_weighted_LCA [("3", 50), ("4", 50)] (alookup sc3.taxid2parent)
    (lineageFuel sc3) sc3.f =
    some (.classified [["3", "2", "1"], ["4", "2", "1"]]
      [[1 / 2, 1, 1], [1 / 2, 1, 1]] 2) := by
  have hwl : withLineages (alookup sc3.taxid2parent) (lineageFuel sc3)
      (sentinelFree [("3", 50), ("4", 50)]) = some rl3 := by decide
  have hf : sc3.f = 1 / 2 := rfl
  unfold find_weighted_LCA
  rw [if_neg (by decide), hwl]
  dsimp only
  rw [hf, rl3_selected, if_neg (by decide)]
  have hboc : basedOnCount rl3 [("3", ["3", "2", "1"]), ("4", ["4", "2", "1"])] = 2 := by
    decide
  rw [hboc]
  simp only [List.map_cons, List.map_nil, rl3_support1, rl3_support2, rl3_support3,
    rl3_support4]

theorem fmt2_half : fmt2 (1 / 2) = "0.50" := by
  have h1 : Int.floor ((1 : ℚ) / 2 * 100 + 1 / 2) = 50 := by
    norm_num [Int.floor_eq_iff]
  rw [fmt2, h1]
  decide

theorem sc3_rows : binRowsOf sc3 = some
    [["b", "classified (1/2)", "based on 2/2 ORFs", "1;2;3", "1.00;1.00;0.50"],
     ["b", "classified (2/2)", "based on 2/2 ORFs", "1;2;4", "1.00;1.00;0.50"]] := by
  have hlcas : lcasOf sc3 = some [("3", 50), ("4", 50)] := by decide
  unfold binRowsOf
  rw [hlcas]
  dsimp only
  unfold binRowsCore
  rw [if_neg (by decide), sc3_fwlca]
  dsimp only
  have htot : totalNORFs sc3 = 2 := by decide
  rw [htot]
  have hpairs : ((([["3", "2", "1"], ["4", "2", "1"]] : List (List String)).zip
      ([[1 / 2, 1, 1], [1 / 2, 1, 1]] : List (List ℚ))).enum)
      = [(0, (["3", "2", "1"], [1 / 2, 1, 1])), (1, (["4", "2", "1"], [1 / 2, 1, 1]))] := rfl
  rw [hpairs]
  simp only [List.map_cons, List.map_nil, classifiedRow, List.length_cons, List.length_nil]
  rw [fmt2_half, fmt2_one]
  decide

/-- C3 counterexample: with f = 1/2 (which satisfies f ≥ 0.5) the
scenario bin of two equal-weight sibling ORFs receives two simultaneous
classifications — both siblings reach support exactly 1/2 — so "exactly
one lineage for every f ≥ 0.5" fails at the boundary f = 0.5. -/
theorem c3_counterexample :
    sc3.f = 1 / 2 ∧ ((1 : ℚ) / 2 ≤ sc3.f) ∧
    binRowsOf sc3 = some
      [["b", "classified (1/2)", "based on 2/2 ORFs", "1;2;3", "1.00;1.00;0.50"],
       ["b", "classified (2/2)", "based on 2/2 ORFs", "1;2;4", "1.00;1.00;0.50"]] ∧
    ([["b", "classified (1/2)", "based on 2/2 ORFs", "1;2;3", "1.00;1.00;0.50"],
      ["b", "classified (2/2)", "based on 2/2 ORFs", "1;2;4",
        "1.00;1.00;0.50"]] : List (List String)).length ≠ 1 :=
  ⟨rfl, le_refl _, sc3_rows, by decide⟩

/-- C3 amended, witness: the scenario entries with the common root "1",
applying the unique-classification conjunct at f = 1 and the ⌊1/f⌋ bound
at f = 3/10 via the computed scenario aggregation. -/
theorem c3_witness :
    sentinelFree [("3", (100 : ℚ)), ("4", 50)] ≠ [] ∧
    (∀ e ∈ sentinelFree [("3", (100 : ℚ)), ("4", 50)], 0 < e.2) ∧
    ((1 : ℚ) / 2 < 1) ∧
    (∃ L s k, find_weighted_LCA [("3", 100), ("4", 50)] (alookup sc4.taxid2parent)
      (lineageFuel sc4) 1 = some (.classified [L] [s] k)) ∧
    (([["3", "2", "1"], ["4", "2", "1"]] : List (List String)).length ≤
      (Int.floor (1 / sc4.f)).toNat) := by
  have hr : ∀ e ∈ sentinelFree [("3", (100 : ℚ)), ("4", 50)],
      ∃ L, findLineage (alookup sc4.taxid2parent) (lineageFuel sc4) e.1 = some L ∧
        L.getLast? = some "1" := by
    intro e he
    have hsf : sentinelFree [("3", (100 : ℚ)), ("4", 50)] = [("3", 100), ("4", 50)] := by
      decide
    rw [hsf] at he
    simp only [List.mem_cons, List.not_mem_nil, or_false] at he
    rcases he with rfl | rfl
    · exact ⟨["3", "2", "1"], by decide, by decide⟩
    · exact ⟨["4", "2", "1"], by decide, by decide⟩
  have hne : sentinelFree [("3", (100 : ℚ)), ("4", 50)] ≠ [] := by decide
  have hw : ∀ e ∈ sentinelFree [("3", (100 : ℚ)), ("4", 50)], 0 < e.2 := by decide
  refine ⟨hne, hw, by norm_num, ?_, ?_⟩
  · exact (c3_amended [("3", 100), ("4", 50)] (alookup sc4.taxid2parent) (lineageFuel sc4)
      1 "1" hne hw hr (le_refl 1)).1 (by norm_num)
  · exact (c3_amended [("3", 100), ("4", 50)] (alookup sc4.taxid2parent) (lineageFuel sc4)
      sc4.f "1" hne hw hr (show (3 : ℚ) / 10 ≤ 1 by norm_num)).2
      (show (0 : ℚ) < 3 / 10 by norm_num)
      [["3", "2", "1"], ["4", "2", "1"]] [[2 / 3, 1, 1], [1 / 3, 1, 1]] 2 sc4_fwlca

end BAT
